import Mathlib

set_option autoImplicit false

variable {α β ε κ : Type}

/-!
Shallow embedding of the core of `src/app.py` (claude-history viewer):
log-record processing (`get_session_messages`), session metadata
(`get_project_sessions`), project listing (`get_all_projects`) and the
statistics aggregator (`get_statistics`).

Modelling conventions:
* One decoded JSON value is a `JVal`.  A log file is a `List (Option JVal)`:
  `none` is a line on which `json.loads` raised `JSONDecodeError`, `some v`
  a line that decoded to `v`.  JSON objects are association lists; they stand
  for already-decoded Python dicts, so keys are unique and `List.lookup`
  is dict access.  JSON numbers are modelled as `Int` (the claims under
  study never depend on fractional values).
* Python runtime errors that the source can raise outside the
  `json.JSONDecodeError` handler (attribute errors on non-dicts, type errors
  from slicing / `len` / `+` / unhashable dict keys) are modelled with
  `Except PyErr`.
-/

inductive JVal where
  | null : JVal
  | bool : Bool → JVal
  | num : Int → JVal
  | str : String → JVal
  | arr : List JVal → JVal
  | obj : List (String × JVal) → JVal

inductive PyErr where
  | attributeError : PyErr
  | typeError : PyErr
deriving DecidableEq, Repr

mutual
/-- Structural equality of decoded JSON values, modelling Python `==` on the
results of `json.loads` (the cross-type numeric unifications `1 == True`
etc. play no role for the values in scope). -/
def JVal.beq : JVal → JVal → Bool
  | JVal.null, JVal.null => true
  | JVal.bool a, JVal.bool b => a == b
  | JVal.num a, JVal.num b => a == b
  | JVal.str a, JVal.str b => a == b
  | JVal.arr a, JVal.arr b => JVal.beqList a b
  | JVal.obj a, JVal.obj b => JVal.beqFields a b
  | _, _ => false

def JVal.beqList : List JVal → List JVal → Bool
  | [], [] => true
  | x :: xs, y :: ys => JVal.beq x y && JVal.beqList xs ys
  | _, _ => false

def JVal.beqFields : List (String × JVal) → List (String × JVal) → Bool
  | [], [] => true
  | (k, v) :: xs, (l, w) :: ys => k == l && JVal.beq v w && JVal.beqFields xs ys
  | _, _ => false
end

instance : BEq JVal := ⟨JVal.beq⟩

/-- Python truthiness (`bool(v)`) of a decoded JSON value. -/
def pyTruthy : JVal → Bool
  | JVal.null => false
  | JVal.bool b => b
  | JVal.num n => n ≠ 0
  | JVal.str s => s ≠ ""
  | JVal.arr xs => !xs.isEmpty
  | JVal.obj fs => !fs.isEmpty

/-- `d.get(k, default)` on a dict already known to be a dict. -/
def objGet (fs : List (String × JVal)) (k : String) (d : JVal) : JVal :=
  (fs.lookup k).getD d

/-- `v.get(k, default)`: attribute error when `v` is not a dict. -/
def pyGetD (v : JVal) (k : String) (d : JVal) : Except PyErr JVal :=
  match v with
  | JVal.obj fs => Except.ok (objGet fs k d)
  | _ => Except.error PyErr.attributeError

/-- An ASCII apostrophe, used by the `repr`-style rendering below. -/
def squote : String := (Char.ofNat 39).toString

mutual
/-- Python `repr(v)` of a decoded JSON value (used for values nested inside
containers by f-string rendering).  String escaping inside `repr` is not
modelled (no claim depends on it). -/
def pyRepr : JVal → String
  | JVal.null => "None"
  | JVal.bool true => "True"
  | JVal.bool false => "False"
  | JVal.num n => toString n
  | JVal.str s => squote ++ s ++ squote
  | JVal.arr xs => "[" ++ pyReprList xs ++ "]"
  | JVal.obj fs => "\x7b" ++ pyReprFields fs ++ "\x7d"

def pyReprList : List JVal → String
  | [] => ""
  | [x] => pyRepr x
  | x :: y :: rest => pyRepr x ++ ", " ++ pyReprList (y :: rest)

def pyReprFields : List (String × JVal) → String
  | [] => ""
  | [(k, v)] => squote ++ k ++ squote ++ ": " ++ pyRepr v
  | (k, v) :: p :: rest =>
      squote ++ k ++ squote ++ ": " ++ pyRepr v ++ ", " ++ pyReprFields (p :: rest)
end

/-- Python `str(v)` (f-string conversion) of a decoded JSON value. -/
def pyStr : JVal → String
  | JVal.str s => s
  | v => pyRepr v

/-- Python `v[:n]` on a decoded JSON value: slices strings and lists,
raises `TypeError` on everything else. -/
def pySlice (v : JVal) (n : Nat) : Except PyErr JVal :=
  match v with
  | JVal.str s => Except.ok (JVal.str (s.take n))
  | JVal.arr xs => Except.ok (JVal.arr (xs.take n))
  | _ => Except.error PyErr.typeError

/-- Python `len(v)`: strings, lists and dicts have a length,
everything else raises `TypeError`. -/
def pyLen (v : JVal) : Except PyErr Nat :=
  match v with
  | JVal.str s => Except.ok s.length
  | JVal.arr xs => Except.ok xs.length
  | JVal.obj fs => Except.ok fs.length
  | _ => Except.error PyErr.typeError

/-- Python `a + b` restricted to the shapes that can reach it here:
string+string concatenates, list+list concatenates, every mixed or other
combination raises `TypeError`. -/
def pyAdd (a b : JVal) : Except PyErr JVal :=
  match a, b with
  | JVal.str s, JVal.str t => Except.ok (JVal.str (s ++ t))
  | JVal.arr xs, JVal.arr ys => Except.ok (JVal.arr (xs ++ ys))
  | _, _ => Except.error PyErr.typeError

/-- Python `s.strip()`; modelled as trimming ASCII whitespace on both ends
(the Unicode whitespace classes Python additionally strips play no role in
the claims). -/
def pyStrip (s : String) : String :=
  String.mk (((s.data.dropWhile Char.isWhitespace).reverse.dropWhile
    Char.isWhitespace).reverse)

/-- Python `a < b` on two strings: lexicographic comparison of the
code-point sequences. -/
def charListLt : List Char → List Char → Bool
  | [], [] => false
  | [], _ :: _ => true
  | _ :: _, [] => false
  | a :: as, b :: bs => a < b || (a == b && charListLt as bs)

/-- The string a decoded JSON value must be for `"\n".join` to accept it;
a non-string raises `TypeError`. -/
def asStr (v : JVal) : Except PyErr String :=
  match v with
  | JVal.str s => Except.ok s
  | _ => Except.error PyErr.typeError

/-!
## Message reader (`get_session_messages`, `src/app.py` lines 147-218)

The file-system part (locating `PROJECTS_DIR/project_id/session_id.jsonl`)
is abstracted away: the function below receives the per-line decode results
of the session file.  A missing file is the empty line list.
-/

/-- Lines 177-184: the detail suffix of a `tool_use` summary, probing the
item's `input` for `command` (sliced to 100 characters), then `file_path`,
then `pattern`; non-dict inputs and inputs with none of the keys give no
suffix. -/
def toolDesc (tool_input : JVal) : Except PyErr String :=
  match tool_input with
  | JVal.obj ifs =>
    if (ifs.lookup "command").isSome then do
      let sliced ← pySlice (objGet ifs "command" (JVal.str "")) 100
      Except.ok (": " ++ pyStr sliced)
    else if (ifs.lookup "file_path").isSome then
      Except.ok (": " ++ pyStr (objGet ifs "file_path" (JVal.str "")))
    else if (ifs.lookup "pattern").isSome then
      Except.ok (": " ++ pyStr (objGet ifs "pattern" (JVal.str "")))
    else Except.ok ""
  | _ => Except.ok ""

/-- One content item of a list-shaped `message.content`
(`src/app.py` lines 165-194): the `JVal`s the loop appends to `text_parts`
for this item, or the Python error the item raises. -/
def itemParts (item : JVal) : Except PyErr (List JVal) :=
  match item with
  | JVal.obj fs =>
    let itype := objGet fs "type" (JVal.str "")
    if itype == JVal.str "text" then
      Except.ok [objGet fs "text" (JVal.str "")]
    else if itype == JVal.str "thinking" then
      let thinking_text := objGet fs "thinking" (JVal.str "")
      if pyTruthy thinking_text then
        Except.ok [JVal.str ("💭 思考过程:\n" ++ pyStr thinking_text)]
      else Except.ok []
    else if itype == JVal.str "tool_use" then do
      let tool_name := objGet fs "name" (JVal.str "unknown")
      let tool_desc ← toolDesc (objGet fs "input" (JVal.obj []))
      Except.ok [JVal.str ("🔧 [" ++ pyStr tool_name ++ tool_desc ++ "]")]
    else if itype == JVal.str "tool_result" then
      let result_content := objGet fs "content" (JVal.str "")
      if pyTruthy result_content then do
        let n ← pyLen result_content
        let truncated ←
          if n > 500 then do
            let sliced ← pySlice result_content 500
            pyAdd sliced (JVal.str "...")
          else Except.ok result_content
        Except.ok [JVal.str ("📋 工具结果:\n" ++ pyStr truncated)]
      else Except.ok []
    else Except.ok []
  | JVal.str s => Except.ok [JVal.str s]
  | _ => Except.ok []

/-- The whole `for item in content` loop: concatenation of the parts of
each item, propagating the first Python error. -/
def textPartsOf : List JVal → Except PyErr (List JVal)
  | [] => Except.ok []
  | item :: rest => do
      let ps ← itemParts item
      let rest' ← textPartsOf rest
      Except.ok (ps ++ rest')

/-- `"\n".join` checking each element left to right: the string list, or
`TypeError` at the first non-string element. -/
def strAll : List JVal → Except PyErr (List String)
  | [] => Except.ok []
  | v :: rest => do
      let s ← asStr v
      let ss ← strAll rest
      Except.ok (s :: ss)

/-- `"\n".join(filter(None, text_parts))`: drop falsy parts, then join;
a truthy non-string part makes `join` raise `TypeError`. -/
def pyJoinNL (parts : List JVal) : Except PyErr String := do
  let strs ← strAll (parts.filter (fun v => pyTruthy v))
  Except.ok (String.intercalate "\n" strs)

/-- Lines 163-195: if `content` is a list, flatten it to a string;
otherwise it passes through unchanged. -/
def contentAfterList (content : JVal) : Except PyErr JVal :=
  match content with
  | JVal.arr items => do
      let parts ← textPartsOf items
      let joined ← pyJoinNL parts
      Except.ok (JVal.str joined)
  | c => Except.ok c

/-- Lines 197-201: the empty-content fallback.  If `content` is falsy, the
message is a dict whose `role` is `"user"` and whose raw `content` is a
plain string, that raw string is used instead. -/
def applyFallback (message content : JVal) : JVal :=
  if pyTruthy content then content
  else
    match message with
    | JVal.obj mfs =>
      if objGet mfs "role" JVal.null == JVal.str "user" then
        match objGet mfs "content" JVal.null with
        | JVal.str s => JVal.str s
        | _ => content
      else content
    | _ => content

/-- Lines 160-201 as one function of the `message` value: read
`message.content` (attribute error when `message` is not a dict), flatten a
list-shaped content, then apply the fallback. -/
def normalizeContent (message : JVal) : Except PyErr JVal := do
  let content0 ← pyGetD message "content" (JVal.str "")
  let content1 ← contentAfterList content0
  Except.ok (applyFallback message content1)

/-- The dict appended to `messages` (lines 207-214).  `type` is the raw
`data.get("type")` value, `content` the final non-empty string. -/
structure DisplayMessage where
  type : JVal
  content : String
  timestamp : JVal
  uuid : JVal
  cwd : JVal
  model : JVal

/-- Processing of one decoded line of the session log (lines 156-214):
`Except.ok none` when the record is skipped, `Except.ok (some m)` when a
display message is emitted, `Except.error e` when the line raises outside
the `json.JSONDecodeError` handler. -/
def processLine (data : JVal) : Except PyErr (Option DisplayMessage) :=
  match data with
  | JVal.obj dfs =>
    let msg_type := objGet dfs "type" JVal.null
    if msg_type == JVal.str "user" || msg_type == JVal.str "assistant" then do
      let message := objGet dfs "message" (JVal.obj [])
      let content ← normalizeContent message
      if pyTruthy content then
        match content with
        | JVal.str s =>
          if pyStrip s == "" then Except.ok none
          else
            Except.ok (some
              { type := msg_type
                content := s
                timestamp := objGet dfs "timestamp" JVal.null
                uuid := objGet dfs "uuid" JVal.null
                cwd := objGet dfs "cwd" (JVal.str "")
                model :=
                  match message with
                  | JVal.obj mfs => objGet mfs "model" (JVal.str "")
                  | _ => JVal.str "" })
        | _ => Except.error PyErr.attributeError
      else Except.ok none
    else Except.ok none
  | _ => Except.error PyErr.attributeError

/-- The same per-line processing with the lines 197-201 fallback removed:
the spec-comparison variant for the refinement claim. -/
def normalizeContentNoFallback (message : JVal) : Except PyErr JVal := do
  let content0 ← pyGetD message "content" (JVal.str "")
  let content1 ← contentAfterList content0
  Except.ok content1

/-- `processLine` with `normalizeContentNoFallback` in place of
`normalizeContent`; otherwise identical. -/
def processLineNoFallback (data : JVal) : Except PyErr (Option DisplayMessage) :=
  match data with
  | JVal.obj dfs =>
    let msg_type := objGet dfs "type" JVal.null
    if msg_type == JVal.str "user" || msg_type == JVal.str "assistant" then do
      let message := objGet dfs "message" (JVal.obj [])
      let content ← normalizeContentNoFallback message
      if pyTruthy content then
        match content with
        | JVal.str s =>
          if pyStrip s == "" then Except.ok none
          else
            Except.ok (some
              { type := msg_type
                content := s
                timestamp := objGet dfs "timestamp" JVal.null
                uuid := objGet dfs "uuid" JVal.null
                cwd := objGet dfs "cwd" (JVal.str "")
                model :=
                  match message with
                  | JVal.obj mfs => objGet mfs "model" (JVal.str "")
                  | _ => JVal.str "" })
        | _ => Except.error PyErr.attributeError
      else Except.ok none
    else Except.ok none
  | _ => Except.error PyErr.attributeError

/-- `get_session_messages` on the decode results of the session file's
lines: lines that failed to decode are skipped, any Python error raised by
a decoded line aborts the whole scan. -/
def get_session_messages : List (Option JVal) → Except PyErr (List DisplayMessage)
  | [] => Except.ok []
  | none :: rest => get_session_messages rest
  | some data :: rest => do
      let m ← processLine data
      let ms ← get_session_messages rest
      Except.ok (match m with | some msg => msg :: ms | none => ms)

/-- The display message one decoded record contributes when its processing
does not raise (`none` both for skipped records and for raising ones). -/
def derivedMessage (data : JVal) : Option DisplayMessage :=
  match processLine data with
  | Except.ok r => r
  | Except.error _ => none

/-!
## Sorting

Python's `sorted` is a stable sort.  A stable sort by a total (pre)order has
a unique result, so it is modelled by stable insertion sorts: an element is
inserted behind every already-placed element it does not strictly precede.
-/

/-- Stable insertion for an ascending sort with strict Bool order `lt`:
`x` goes in front of the first element it strictly precedes. -/
def insortAsc (lt : α → α → Bool) (x : α) : List α → List α
  | [] => [x]
  | y :: ys => if lt x y then x :: y :: ys else y :: insortAsc lt x ys

/-- `sorted(l)` for strict Bool order `lt` (stable, ascending). -/
def sortAsc (lt : α → α → Bool) (l : List α) : List α :=
  l.foldl (fun acc x => insortAsc lt x acc) []

/-- Stable insertion for a descending sort by a `Nat` key:
`x` goes behind every element whose key is at least its own. -/
def insortDescNat (key : α → Nat) (x : α) : List α → List α
  | [] => [x]
  | y :: ys => if key x ≤ key y then y :: insortDescNat key x ys else x :: y :: ys

/-- `sorted(l, key=key, reverse=True)` for a `Nat` key (stable, descending). -/
def sortDescNat (key : α → Nat) (l : List α) : List α :=
  l.foldl (fun acc x => insortDescNat key x acc) []

/-- Python `a < b` for the key values the session sort can compare; string
and number comparisons are total, every other combination is modelled as
`TypeError` (mixed-type keys make Python's `sorted` raise as well). -/
def pyLtJ : JVal → JVal → Except PyErr Bool
  | JVal.str a, JVal.str b => Except.ok (charListLt a.data b.data)
  | JVal.num a, JVal.num b => Except.ok (decide (a < b))
  | _, _ => Except.error PyErr.typeError

/-- Stable descending insertion by a `JVal` key under Python comparison,
propagating comparison `TypeError`s. -/
def insortDescM (key : α → JVal) (x : α) : List α → Except PyErr (List α)
  | [] => Except.ok [x]
  | y :: ys => do
      let lt ← pyLtJ (key y) (key x)
      if lt then Except.ok (x :: y :: ys)
      else do
        let zs ← insortDescM key x ys
        Except.ok (y :: zs)

/-- `sorted(l, key=key, reverse=True)` for a `JVal` key (stable, descending),
propagating comparison `TypeError`s. -/
def sortDescM (key : α → JVal) (l : List α) : Except PyErr (List α) :=
  l.foldlM (fun acc x => insortDescM key x acc) []

/-!
## File-system model

A project directory holds session files; a session file is its stem plus
the per-line decode results.  `iterdir`/`glob` enumeration order is the
list order.
-/

structure SessionFile where
  stem : String
  lines : List (Option JVal)

structure ProjectDir where
  dirName : String
  sessionFiles : List SessionFile

/-!
## Project index (`get_all_projects`, `src/app.py` lines 84-105)
-/

/-- Python `str.replace(pat, rep)` on code-point lists: left-to-right,
non-overlapping, for a non-empty pattern `c :: cs`. -/
def pyReplaceCore (c : Char) (cs rep : List Char) : List Char → List Char
  | [] => []
  | x :: xs =>
    if (c :: cs).isPrefixOf (x :: xs) then
      rep ++ pyReplaceCore c cs rep (xs.drop cs.length)
    else x :: pyReplaceCore c cs rep xs
termination_by l => l.length
decreasing_by
  · simp only [List.length_drop, List.length_cons]
    omega
  · simp only [List.length_cons]
    omega

/-- Python `str.replace` (the empty-pattern case never occurs here). -/
def pyReplace (pat rep s : List Char) : List Char :=
  match pat with
  | [] => s
  | c :: cs => pyReplaceCore c cs rep s

/-- Lines 91-95: directory-identifier decoding.  First decode assuming a
Windows path (`--` → `:\`, then `-` → `\`); keep that form when it starts
with `C:\` or `D:\`, otherwise decode again with `/` for both. -/
def decodeProjectName (d : List Char) : List Char :=
  let win := pyReplace ['-'] ['\\'] (pyReplace ['-', '-'] [':', '\\'] d)
  if ['C', ':', '\\'].isPrefixOf win || ['D', ':', '\\'].isPrefixOf win then win
  else pyReplace ['-'] ['/'] (pyReplace ['-', '-'] ['/'] d)

/-- Hyphen-run view of the identifier decoding: each left-to-right
double-hyphen pair becomes `two`, each remaining single hyphen becomes
`one`, every other character is kept.  (So a maximal run of `k` hyphens
becomes `⌈k/2⌉` separators.)  Used to characterise the `replace` chain of
lines 91-95. -/
def runDecode (two one : List Char) : List Char → List Char
  | [] => []
  | '-' :: '-' :: rest => two ++ runDecode two one rest
  | '-' :: rest => one ++ runDecode two one rest
  | x :: rest => x :: runDecode two one rest

/-- Modelled from the spec's words (§3 Project): "replace double-hyphen
runs with a path separator" — each left-to-right double-hyphen pair
becomes the separator and nothing else changes. -/
def specReplaceDD (sep : Char) : List Char → List Char
  | [] => []
  | '-' :: '-' :: rest => sep :: specReplaceDD sep rest
  | x :: rest => x :: specReplaceDD sep rest

/-- Modelled from the spec's words: an identifier "beginning with a drive
letter pattern" — a letter followed by an encoded `:\` (a double hyphen). -/
def isDriveStyleId : List Char → Bool
  | c :: '-' :: '-' :: _ => c.isAlpha
  | _ => false

/-- Modelled from the spec's words (§3 Project): the identifier-to-name
decoding as the spec describes it, for comparison with the source's
`decodeProjectName`. -/
def specDecodeProjectName (d : List Char) : List Char :=
  if isDriveStyleId d then specReplaceDD '\\' d else specReplaceDD '/' d

structure Project where
  id : String
  name : String
  path : String
  session_count : Nat

/-- The project records in `iterdir` order, before the final sort
(`str(project_dir)` is abbreviated to the directory name). -/
def unsortedProjects (dirs : List ProjectDir) : List Project :=
  dirs.map (fun dir =>
    { id := dir.dirName
      name := String.mk (decodeProjectName dir.dirName.data)
      path := dir.dirName
      session_count := dir.sessionFiles.length })

/-- `get_all_projects()`: project records sorted descending by
`session_count` (line 105). -/
def get_all_projects (dirs : List ProjectDir) : List Project :=
  sortDescNat (fun p => p.session_count) (unsortedProjects dirs)

/-!
## Session index (`get_project_sessions`, `src/app.py` lines 108-144)
-/

structure SessionMeta where
  id : String
  file : String
  message_count : Nat
  first_timestamp : JVal
  last_timestamp : JVal

/-- The metadata loop over one session file (lines 122-134), carrying
`message_count`, `first_timestamp`, `last_timestamp` (`None` modelled as
`JVal.null`; a truthy timestamp is never null, so `== null` is `is None`). -/
def sessionScan : List (Option JVal) → Nat → JVal → JVal →
    Except PyErr (Nat × JVal × JVal)
  | [], c, f, l => Except.ok (c, f, l)
  | none :: rest, c, f, l => sessionScan rest c f l
  | some data :: rest, c, f, l =>
    match data with
    | JVal.obj dfs =>
      let t := objGet dfs "type" JVal.null
      if t == JVal.str "user" || t == JVal.str "assistant" then
        let ts := objGet dfs "timestamp" JVal.null
        if pyTruthy ts then
          sessionScan rest (c + 1) (if f == JVal.null then ts else f) ts
        else sessionScan rest (c + 1) f l
      else sessionScan rest c f l
    | _ => Except.error PyErr.attributeError

/-- The session dicts of the given files in `glob` order: one metadata
scan per file. -/
def sessionMetas (project_id : String) :
    List SessionFile → Except PyErr (List SessionMeta)
  | [] => Except.ok []
  | f :: rest => do
      let (c, fts, lts) ← sessionScan f.lines 0 JVal.null JVal.null
      let ms ← sessionMetas project_id rest
      Except.ok
        ({ id := f.stem
           file := project_id ++ "/" ++ f.stem ++ ".jsonl"
           message_count := c
           first_timestamp := fts
           last_timestamp := lts } :: ms)

/-- The session dicts in `glob` order, before the final sort. -/
def unsortedSessions (dirs : List ProjectDir) (project_id : String) :
    Except PyErr (List SessionMeta) :=
  match dirs.find? (fun d => d.dirName == project_id) with
  | none => Except.ok []
  | some dir => sessionMetas project_id dir.sessionFiles

/-- The session sort key: `x.get("last_timestamp") or ""` (line 144). -/
def sessKey (s : SessionMeta) : JVal :=
  if pyTruthy s.last_timestamp then s.last_timestamp else JVal.str ""

/-- `get_project_sessions(project_id)`: session metadata sorted descending
by `last_timestamp or ""`; a missing project directory yields `[]`. -/
def get_project_sessions (dirs : List ProjectDir) (project_id : String) :
    Except PyErr (List SessionMeta) := do
  let ss ← unsortedSessions dirs project_id
  sortDescM sessKey ss

/-!
## Statistics aggregator (`get_statistics`, `src/app.py` lines 221-302)

`datetime.fromtimestamp(ts / 1000)` is abstracted by two parameters:
`dateOf t` is the `"%Y-%m-%d"` rendering of the local calendar date of
epoch-millisecond `t`, `hourOf t` its local hour of day.
-/

/-- `read_history_file()` (lines 70-81) on per-line decode results:
undecodable lines are skipped, nothing else can fail. -/
def read_history_file (lines : List (Option JVal)) : List JVal :=
  lines.filterMap id

/-- `defaultdict(int)` increment: bump the key's count if present, else
append it with count 1 (dict insertion order). -/
def bump [BEq κ] (m : List (κ × Nat)) (k : κ) : List (κ × Nat) :=
  if m.any (fun p => p.1 == k) then
    m.map (fun p => if p.1 == k then (p.1, p.2 + 1) else p)
  else m ++ [(k, 1)]

/-- Whether a decoded JSON value is a hashable Python value (usable as a
dict key); lists and dicts are not. -/
def pyHashable : JVal → Bool
  | JVal.arr _ => false
  | JVal.obj _ => false
  | _ => true

/-- `defaultdict(int)` increment with a `JVal` key: unhashable keys raise
`TypeError`. -/
def bumpHash (m : List (JVal × Nat)) (k : JVal) : Except PyErr (List (JVal × Nat)) :=
  if pyHashable k then Except.ok (bump m k) else Except.error PyErr.typeError

/-- The values `v` for which Python `v / 1000` is a number (`bool` is an
`int` subclass); everything else raises `TypeError`. -/
def asNumeric : JVal → Option Int
  | JVal.num n => some n
  | JVal.bool true => some 1
  | JVal.bool false => some 0
  | _ => none

/-- The history-analysis loop (lines 238-245): bucket each entry with a
truthy `timestamp` into the daily and hourly histograms. -/
def historyScan (dateOf : Int → String) (hourOf : Int → Nat) :
    List JVal → List (String × Nat) → List (Nat × Nat) →
    Except PyErr (List (String × Nat) × List (Nat × Nat))
  | [], daily, hourly => Except.ok (daily, hourly)
  | entry :: rest, daily, hourly =>
    match entry with
    | JVal.obj efs =>
      let ts := objGet efs "timestamp" JVal.null
      if pyTruthy ts then
        match asNumeric ts with
        | some t =>
            historyScan dateOf hourOf rest (bump daily (dateOf t))
              (bump hourly (hourOf t))
        | none => Except.error PyErr.typeError
      else historyScan dateOf hourOf rest daily hourly
    | _ => Except.error PyErr.attributeError

structure ProjActivity where
  name : String
  id : String
  messages : Nat

/-- Accumulator of the per-session statistics loop: global message total,
the current project's message total, and the usage counters. -/
structure SessAcc where
  total_messages : Nat
  project_messages : Nat
  model_usage : List (JVal × Nat)
  tool_usage : List (JVal × Nat)

/-- The `tool_use` counting loop over a list-shaped content (lines 276-279). -/
def toolScan : List JVal → List (JVal × Nat) → Except PyErr (List (JVal × Nat))
  | [], tools => Except.ok tools
  | item :: rest, tools =>
    match item with
    | JVal.obj ifs =>
      if objGet ifs "type" JVal.null == JVal.str "tool_use" then do
        let tools' ← bumpHash tools (objGet ifs "name" (JVal.str "unknown"))
        toolScan rest tools'
      else toolScan rest tools
    | _ => toolScan rest tools

/-- One decoded session-log line of the statistics pass (lines 261-279). -/
def statsLine (data : JVal) (acc : SessAcc) : Except PyErr SessAcc :=
  match data with
  | JVal.obj dfs =>
    let t := objGet dfs "type" JVal.null
    let acc :=
      if t == JVal.str "user" || t == JVal.str "assistant" then
        { acc with
            total_messages := acc.total_messages + 1
            project_messages := acc.project_messages + 1 }
      else acc
    match objGet dfs "message" (JVal.obj []) with
    | JVal.obj mfs => do
        let model := objGet mfs "model" JVal.null
        let models ←
          if pyTruthy model then bumpHash acc.model_usage model
          else Except.ok acc.model_usage
        let tools ←
          match objGet mfs "content" (JVal.arr []) with
          | JVal.arr items => toolScan items acc.tool_usage
          | _ => Except.ok acc.tool_usage
        Except.ok { acc with model_usage := models, tool_usage := tools }
    | _ => Except.ok acc
  | _ => Except.error PyErr.attributeError

/-- The statistics pass over one session file's lines. -/
def statsFileScan : List (Option JVal) → SessAcc → Except PyErr SessAcc
  | [], acc => Except.ok acc
  | none :: rest, acc => statsFileScan rest acc
  | some d :: rest, acc => do statsFileScan rest (← statsLine d acc)

/-- The statistics pass over all session files of one project. -/
def filesScan : List SessionFile → SessAcc → Except PyErr SessAcc
  | [], acc => Except.ok acc
  | f :: rest, acc => do filesScan rest (← statsFileScan f.lines acc)

/-- Accumulator of the per-project statistics loop. -/
structure StatsAcc where
  total_sessions : Nat
  total_messages : Nat
  model_usage : List (JVal × Nat)
  tool_usage : List (JVal × Nat)
  projects_by_activity : List ProjActivity

/-- The per-project statistics loop (lines 251-287), walking the projects
in `get_all_projects` order and re-reading each project's session files. -/
def statsProjectScan (dirs : List ProjectDir) :
    List Project → StatsAcc → Except PyErr StatsAcc
  | [], acc => Except.ok acc
  | p :: rest, acc => do
      let files :=
        ((dirs.find? (fun d => d.dirName == p.id)).map
          (fun d => d.sessionFiles)).getD []
      let sacc ← filesScan files
        { total_messages := acc.total_messages
          project_messages := 0
          model_usage := acc.model_usage
          tool_usage := acc.tool_usage }
      statsProjectScan dirs rest
        { total_sessions := acc.total_sessions + files.length
          total_messages := sacc.total_messages
          model_usage := sacc.model_usage
          tool_usage := sacc.tool_usage
          projects_by_activity :=
            acc.projects_by_activity ++
              [{ name := p.name, id := p.id, messages := sacc.project_messages }] }

/-- Python `<` on `(str, int)` pairs (comparison of `daily_activity.items()`). -/
def pairLtSN (p q : String × Nat) : Bool :=
  charListLt p.1.data q.1.data || (p.1 == q.1 && decide (p.2 < q.2))

/-- Python `<` on `(int, int)` pairs (comparison of `hourly_activity.items()`). -/
def pairLtNN (p q : Nat × Nat) : Bool :=
  decide (p.1 < q.1) || (p.1 == q.1 && decide (p.2 < q.2))

structure Stats where
  total_projects : Nat
  total_sessions : Nat
  total_messages : Nat
  total_history_entries : Nat
  projects_by_activity : List ProjActivity
  daily_activity : List (String × Nat)
  hourly_activity : List (Nat × Nat)
  model_usage : List (JVal × Nat)
  tool_usage : List (JVal × Nat)

/-- `get_statistics()` over the decode results of the history feed and the
projects tree.  The post-processing (lines 290-300) keeps the 10 most
active projects, the last 30 date-sorted daily buckets, the hour-sorted
hourly buckets and the 20 most used tools. -/
def get_statistics (dateOf : Int → String) (hourOf : Int → Nat)
    (historyLines : List (Option JVal)) (dirs : List ProjectDir) :
    Except PyErr Stats := do
  let history := read_history_file historyLines
  let (daily, hourly) ← historyScan dateOf hourOf history [] []
  let projects := get_all_projects dirs
  let acc ← statsProjectScan dirs projects
    { total_sessions := 0
      total_messages := 0
      model_usage := []
      tool_usage := []
      projects_by_activity := [] }
  let dailySorted := sortAsc pairLtSN daily
  Except.ok
    { total_projects := projects.length
      total_sessions := acc.total_sessions
      total_messages := acc.total_messages
      total_history_entries := history.length
      projects_by_activity :=
        (sortDescNat (fun a => a.messages) acc.projects_by_activity).take 10
      daily_activity := dailySorted.drop (dailySorted.length - 30)
      hourly_activity := sortAsc pairLtNN hourly
      model_usage := acc.model_usage
      tool_usage := (sortDescNat (fun p => p.2) acc.tool_usage).take 20 }

/-!
## Well-formed records

Sufficient shape conditions under which the per-line processing cannot
raise: the record is a JSON object; for "user"/"assistant" records the
`message` field (when present) is an object; string-shaped or falsy
content passes through, list-shaped content has well-formed items (string
`text` values, string `command` values, string `tool_result` contents).
-/

/-- Whether a decoded JSON value is a string. -/
def isStrB : JVal → Bool
  | JVal.str _ => true
  | _ => false

/-- A content item the lines 166-194 loop can process without raising and
whose contributed parts are all strings. -/
def itemWf : JVal → Bool
  | JVal.obj fs =>
      (objGet fs "type" (JVal.str "") != JVal.str "text"
        || isStrB (objGet fs "text" (JVal.str "")))
      && (objGet fs "type" (JVal.str "") != JVal.str "tool_use"
        || (match objGet fs "input" (JVal.obj []) with
            | JVal.obj ifs => (ifs.lookup "command").all isStrB
            | _ => true))
      && (objGet fs "type" (JVal.str "") != JVal.str "tool_result"
        || isStrB (objGet fs "content" (JVal.str "")))
  | _ => true

/-- A `message.content` value the normalizer can process without raising. -/
def contentWf : JVal → Bool
  | JVal.arr items => items.all itemWf
  | JVal.str _ => true
  | v => !pyTruthy v

/-- A decoded record the lines 156-214 loop can process without raising. -/
def recordWf : JVal → Bool
  | JVal.obj dfs =>
      let msg_type := objGet dfs "type" JVal.null
      if msg_type == JVal.str "user" || msg_type == JVal.str "assistant" then
        match objGet dfs "message" (JVal.obj []) with
        | JVal.obj mfs => contentWf (objGet mfs "content" (JVal.str ""))
        | _ => false
      else true
  | _ => false

/-- A session-log line the message reader can process without raising:
either a decode failure (skipped) or a well-formed record. -/
def lineWf : Option JVal → Bool
  | none => true
  | some d => recordWf d

/-- The number of decodable lines whose record is an object of `type`
"user" or "assistant" — defined from the `type` field alone, with no
reference to message content. -/
def countUA (lines : List (Option JVal)) : Nat :=
  ((lines.filterMap id).filter (fun d =>
    match d with
    | JVal.obj dfs =>
        objGet dfs "type" JVal.null == JVal.str "user"
          || objGet dfs "type" JVal.null == JVal.str "assistant"
    | _ => false)).length

/-- A session-log line the metadata scan can process with string-or-absent
timestamps: a decode failure, or an object whose `timestamp` is a string
whenever it is truthy. -/
def sessLineWf : Option JVal → Bool
  | none => true
  | some (JVal.obj dfs) =>
      !pyTruthy (objGet dfs "timestamp" JVal.null)
        || isStrB (objGet dfs "timestamp" JVal.null)
  | some _ => false

/-- The session sort key as a string (faithful whenever the key is a
string, which the well-formedness condition guarantees). -/
def sessKeyStr (m : SessionMeta) : String :=
  match sessKey m with
  | JVal.str s => s
  | _ => ""

/-- The pure counterpart of `insortDescM` for string keys. -/
def insortDescStr (key : α → String) (x : α) : List α → List α
  | [] => [x]
  | y :: ys =>
      if charListLt (key y).data (key x).data then x :: y :: ys
      else y :: insortDescStr key x ys

/-- The pure counterpart of `sortDescM` for string keys: Python's
`sorted(l, key=key, reverse=True)` on string keys. -/
def sortDescStr (key : α → String) (l : List α) : List α :=
  l.foldl (fun acc x => insortDescStr key x acc) []

/-- A null-or-string value — the shape `last_timestamp` keeps on
well-formed session lines. -/
def nullOrStr (v : JVal) : Bool := isStrB v || (v == JVal.null)

/-- Fixture for C7: one project with three session files — timestamps
2024-02-02, none, 2024-03-03. -/
def exC7dirs : List ProjectDir :=
  [⟨"p",
    [⟨"s1", [some (JVal.obj [("type", JVal.str "user"),
                             ("timestamp", JVal.str "2024-02-02")])]⟩,
     ⟨"s2", []⟩,
     ⟨"s3", [some (JVal.obj [("type", JVal.str "user"),
                             ("timestamp", JVal.str "2024-03-03")])]⟩]⟩]

/-- Fixture for C7: the expected sorted session metadata. -/
def exC7sorted : List SessionMeta :=
  [{ id := "s3", file := "p/s3.jsonl", message_count := 1,
     first_timestamp := JVal.str "2024-03-03",
     last_timestamp := JVal.str "2024-03-03" },
   { id := "s1", file := "p/s1.jsonl", message_count := 1,
     first_timestamp := JVal.str "2024-02-02",
     last_timestamp := JVal.str "2024-02-02" },
   { id := "s2", file := "p/s2.jsonl", message_count := 0,
     first_timestamp := JVal.null, last_timestamp := JVal.null }]

/-- A history entry the statistics pass can process without raising: an
object whose `timestamp`, when truthy, is numeric. -/
def histEntryWf : JVal → Bool
  | JVal.obj efs =>
      !pyTruthy (objGet efs "timestamp" JVal.null)
        || (asNumeric (objGet efs "timestamp" JVal.null)).isSome
  | _ => false

/-- A history-feed line: a decode failure or a well-formed entry. -/
def histLineWf : Option JVal → Bool
  | none => true
  | some e => histEntryWf e

/-- A content item the statistics tool counter can process: `tool_use`
items need a hashable `name`. -/
def statsItemWf : JVal → Bool
  | JVal.obj ifs =>
      !(objGet ifs "type" JVal.null == JVal.str "tool_use")
        || pyHashable (objGet ifs "name" (JVal.str "unknown"))
  | _ => true

/-- A session-log record the statistics pass can process without raising:
an object whose `message`, when it is an object, has a hashable truthy
`model` and hashable tool names in a list-shaped content. -/
def statsRecordWf : JVal → Bool
  | JVal.obj dfs =>
      match objGet dfs "message" (JVal.obj []) with
      | JVal.obj mfs =>
          (!pyTruthy (objGet mfs "model" JVal.null)
            || pyHashable (objGet mfs "model" JVal.null))
          && (match objGet mfs "content" (JVal.arr []) with
              | JVal.arr items => items.all statsItemWf
              | _ => true)
      | _ => true
  | _ => false

/-- A session-log line of the statistics pass: a decode failure or a
well-formed record. -/
def statsLineWf : Option JVal → Bool
  | none => true
  | some d => statsRecordWf d

/-- The local calendar dates of the history entries with a truthy numeric
`timestamp`, in feed order (with multiplicity). -/
def historyDatesOf (dateOf : Int → String) (entries : List JVal) : List String :=
  entries.filterMap (fun e =>
    match e with
    | JVal.obj efs =>
        if pyTruthy (objGet efs "timestamp" JVal.null) then
          (asNumeric (objGet efs "timestamp" JVal.null)).map dateOf
        else none
    | _ => none)

/-- Fixture for C8: a history feed with 31 entries on 31 distinct
epoch-millisecond timestamps. -/
def exC8hist : List (Option JVal) :=
  (List.range 31).map (fun i =>
    some (JVal.obj [("timestamp", JVal.num (100 + (i : Int)))]))

/-- Fixture for C8: the statistics computed from that feed (the date
renderer is abstracted as decimal printing, the hour as 0). -/
def exC8stats : Stats :=
  (get_statistics (fun t => toString t) (fun _ => 0) exC8hist []).toOption.getD
    { total_projects := 0, total_sessions := 0, total_messages := 0,
      total_history_entries := 0, projects_by_activity := [],
      daily_activity := [], hourly_activity := [], model_usage := [],
      tool_usage := [] }

/-- Fixture: a history feed with one timestamped entry and one decode
failure. -/
def exC1hist : List (Option JVal) :=
  [some (JVal.obj [("timestamp", JVal.num 5)]), none]

/-- Fixture: a well-formed "user" record with content `"hi"`. -/
def exRecHi : JVal :=
  JVal.obj [("type", JVal.str "user"),
            ("message", JVal.obj [("content", JVal.str "hi")])]

/-- Fixture: the fields of a "user" record whose content is whitespace. -/
def exC4emptyFields : List (String × JVal) :=
  [("type", JVal.str "user"),
   ("message", JVal.obj [("content", JVal.str "  ")])]

/-- Fixture: a mixed log — malformed lines among well-formed records. -/
def exC3lines : List (Option JVal) :=
  [none, some exRecHi, none, some (JVal.obj exC4emptyFields)]

/-- Fixture: one project directory with one session file. -/
def exC1dirs : List ProjectDir :=
  [⟨"p", [⟨"s", [some exRecHi, none]⟩]⟩]

/-- Enumeration-order fixture for the C9 example: directories `b`, `a`,
`c` holding 2, 5 and 2 session files. -/
def exampleDirs522C9 : List ProjectDir :=
  [⟨"b", [⟨"s1", []⟩, ⟨"s2", []⟩]⟩,
   ⟨"a", [⟨"t1", []⟩, ⟨"t2", []⟩, ⟨"t3", []⟩, ⟨"t4", []⟩, ⟨"t5", []⟩]⟩,
   ⟨"c", [⟨"u1", []⟩, ⟨"u2", []⟩]⟩]

/-!
## Small rewriting lemmas
-/

@[simp] theorem jbeq_str (a b : String) :
    (JVal.str a == JVal.str b) = (a == b) := rfl

@[simp] theorem except_bind_ok (a : α) (f : α → Except ε β) :
    (Except.ok a : Except ε α) >>= f = f a := rfl

@[simp] theorem except_bind_error (e : ε) (f : α → Except ε β) :
    (Except.error e : Except ε α) >>= f = Except.error e := rfl

/-!
## Lemmas: the identifier decoding is the hyphen-run replacement
-/

theorem pyReplaceCore_nil (c : Char) (cs rep : List Char) :
    pyReplaceCore c cs rep [] = [] := by
  simp [pyReplaceCore]

theorem singleReplace_cons_hyphen (one : List Char) (xs : List Char) :
    pyReplaceCore '-' [] one ('-' :: xs) = one ++ pyReplaceCore '-' [] one xs := by
  rw [pyReplaceCore.eq_def]
  simp [List.isPrefixOf]

theorem singleReplace_cons_ne (one : List Char) (x : Char) (xs : List Char)
    (hx : ¬ x = '-') :
    pyReplaceCore '-' [] one (x :: xs) = x :: pyReplaceCore '-' [] one xs := by
  rw [pyReplaceCore.eq_def]
  simp [List.isPrefixOf, Ne.symm hx]

theorem pairReplace_dd (two : List Char) (rest : List Char) :
    pyReplaceCore '-' ['-'] two ('-' :: '-' :: rest)
      = two ++ pyReplaceCore '-' ['-'] two rest := by
  rw [pyReplaceCore.eq_def]
  simp [List.isPrefixOf]

theorem pairReplace_single (two : List Char) (y : Char) (t : List Char)
    (hy : ¬ y = '-') :
    pyReplaceCore '-' ['-'] two ('-' :: y :: t)
      = '-' :: pyReplaceCore '-' ['-'] two (y :: t) := by
  rw [pyReplaceCore.eq_def]
  simp [List.isPrefixOf, Ne.symm hy]

theorem pairReplace_last (two : List Char) :
    pyReplaceCore '-' ['-'] two ['-'] = ['-'] := by
  rw [pyReplaceCore.eq_def]
  simp [List.isPrefixOf, pyReplaceCore_nil]

theorem pairReplace_cons_ne (two : List Char) (x : Char) (rest : List Char)
    (hx : ¬ x = '-') :
    pyReplaceCore '-' ['-'] two (x :: rest)
      = x :: pyReplaceCore '-' ['-'] two rest := by
  rw [pyReplaceCore.eq_def]
  simp [List.isPrefixOf, Ne.symm hx]

theorem singleReplace_append (one a b : List Char)
    (h : ∀ ch ∈ a, ¬ ch = '-') :
    pyReplaceCore '-' [] one (a ++ b) = a ++ pyReplaceCore '-' [] one b := by
  induction a with
  | nil => simp
  | cons x xs ih =>
      simp only [List.cons_append]
      rw [singleReplace_cons_ne one x _ (h x (by simp))]
      rw [ih (fun ch hch => h ch (by simp [hch]))]

theorem runDecode_single (two one : List Char) (y : Char) (t : List Char)
    (hy : ¬ y = '-') :
    runDecode two one ('-' :: y :: t) = one ++ runDecode two one (y :: t) := by
  rw [runDecode.eq_def]
  split
  · simp_all
  · simp_all
  · simp_all
  · rename_i hne heq
    injection heq with h1 h2
    exact absurd h1.symm hne

theorem runDecode_cons_ne (two one : List Char) (x : Char) (rest : List Char)
    (hx : ¬ x = '-') :
    runDecode two one (x :: rest) = x :: runDecode two one rest := by
  rw [runDecode.eq_def]
  split <;> simp_all

theorem replace_pair_single (two one : List Char)
    (h : ∀ ch ∈ two, ¬ ch = '-') (d : List Char) :
    pyReplaceCore '-' [] one (pyReplaceCore '-' ['-'] two d)
      = runDecode two one d := by
  induction d using runDecode.induct two one with
  | case1 => simp [pyReplaceCore_nil, runDecode]
  | case2 rest ih =>
      rw [pairReplace_dd, singleReplace_append one two _ h, ih]
      rfl
  | case3 rest hne ih =>
      cases rest with
      | nil =>
          rw [pairReplace_last, singleReplace_cons_hyphen, pyReplaceCore_nil]
          rfl
      | cons y t =>
          have hy : ¬ y = '-' := fun hy => hne t (by rw [hy])
          rw [pairReplace_single two y t hy, singleReplace_cons_hyphen, ih,
            runDecode_single two one y t hy]
  | case4 x rest hx1 hx2 ih =>
      rw [pairReplace_cons_ne two x rest hx2,
        singleReplace_cons_ne one x _ hx2, ih,
        runDecode_cons_ne two one x rest hx2]

/-- The chained `replace` calls of lines 91-95 compute the hyphen-run
replacement: the backslash form when it makes the `C:\`/`D:\` test succeed,
the slash form otherwise. -/
theorem decodeProjectName_eq_runDecode (d : List Char) :
    decodeProjectName d =
      if ['C', ':', '\\'].isPrefixOf (runDecode [':', '\\'] ['\\'] d)
          || ['D', ':', '\\'].isPrefixOf (runDecode [':', '\\'] ['\\'] d) then
        runDecode [':', '\\'] ['\\'] d
      else runDecode ['/'] ['/'] d := by
  have h1 : pyReplace ['-'] ['\\'] (pyReplace ['-', '-'] [':', '\\'] d)
      = runDecode [':', '\\'] ['\\'] d :=
    replace_pair_single [':', '\\'] ['\\'] (by decide) d
  have h2 : pyReplace ['-'] ['/'] (pyReplace ['-', '-'] ['/'] d)
      = runDecode ['/'] ['/'] d :=
    replace_pair_single ['/'] ['/'] (by decide) d
  rw [decodeProjectName, h1, h2]

/-- C2, counterexample.  The claim says the display name is obtained by
replacing double-hyphen runs with a path separator.  The identifier
`foo-bar` contains no double hyphen and no drive-letter pattern, so under
the claim its name would stay `foo-bar`; the code also replaces the single
hyphen and produces `foo/bar`. -/
theorem C2_counterexample :
    decodeProjectName "foo-bar".data = "foo/bar".data ∧
    specDecodeProjectName "foo-bar".data = "foo-bar".data ∧
    "foo/bar".data ≠ "foo-bar".data := by
  refine ⟨?_, rfl, by decide⟩
  rw [decodeProjectName_eq_runDecode]
  rfl

/-- C2, amended.  The derived display name replaces, left to right, each
double-hyphen pair and each remaining single hyphen (so a maximal run of
`k` hyphens yields `⌈k/2⌉` separators).  Identifiers are Windows-drive
style when the backslash decoding (`--` → `:\`, then `-` → `\`) begins
with `C:\` or `D:\`; those keep that backslash form, all others replace
both `--` and `-` with a forward slash. -/
theorem C2_amended (d : List Char) :
    decodeProjectName d =
      if ['C', ':', '\\'].isPrefixOf (runDecode [':', '\\'] ['\\'] d)
          || ['D', ':', '\\'].isPrefixOf (runDecode [':', '\\'] ['\\'] d) then
        runDecode [':', '\\'] ['\\'] d
      else runDecode ['/'] ['/'] d :=
  decodeProjectName_eq_runDecode d

/-!
## Lemmas: the stable descending insertion sort by a `Nat` key
-/

theorem insortDescNat_perm (key : α → Nat) (x : α) (l : List α) :
    (insortDescNat key x l).Perm (x :: l) := by
  induction l with
  | nil => exact List.Perm.refl _
  | cons y ys ih =>
      by_cases h : key x ≤ key y
      · simp only [insortDescNat, if_pos h]
        exact (ih.cons y).trans (List.Perm.swap x y ys)
      · simp only [insortDescNat, if_neg h]
        exact List.Perm.refl _

theorem insortDescNat_mem {key : α → Nat} {x z : α} {l : List α}
    (hz : z ∈ insortDescNat key x l) : z = x ∨ z ∈ l := by
  have := (insortDescNat_perm key x l).mem_iff.mp hz
  simpa using this

theorem insortDescNat_pairwise (key : α → Nat) (x : α) {l : List α}
    (hl : List.Pairwise (fun a b => key b ≤ key a) l) :
    List.Pairwise (fun a b => key b ≤ key a) (insortDescNat key x l) := by
  induction l with
  | nil => simp [insortDescNat]
  | cons y ys ih =>
      by_cases h : key x ≤ key y
      · simp only [insortDescNat, if_pos h]
        refine List.Pairwise.cons ?_ (ih hl.tail)
        intro z hz
        rcases insortDescNat_mem hz with rfl | hz
        · exact h
        · exact List.rel_of_pairwise_cons hl hz
      · simp only [insortDescNat, if_neg h]
        refine List.Pairwise.cons ?_ hl
        intro z hz
        rcases hz with _ | hz
        · exact le_of_lt (lt_of_not_le h)
        · exact le_trans (List.rel_of_pairwise_cons hl (by assumption))
            (le_of_lt (lt_of_not_le h))

theorem insortDescNat_filter (key : α → Nat) (x : α) {l : List α}
    (hl : List.Pairwise (fun a b => key b ≤ key a) l) (c : Nat) :
    (insortDescNat key x l).filter (fun y => key y == c)
      = if key x = c then l.filter (fun y => key y == c) ++ [x]
        else l.filter (fun y => key y == c) := by
  induction l with
  | nil =>
      by_cases hx : key x = c <;> simp [insortDescNat, hx]
  | cons y ys ih =>
      by_cases h : key x ≤ key y
      · simp only [insortDescNat, if_pos h]
        by_cases hy : key y = c
        · rw [List.filter_cons_of_pos (by simpa using hy),
            List.filter_cons_of_pos (by simpa using hy), ih hl.tail]
          by_cases hx : key x = c <;> simp [hx]
        · rw [List.filter_cons_of_neg (by simpa using hy),
            List.filter_cons_of_neg (by simpa using hy), ih hl.tail]
      · simp only [insortDescNat, if_neg h]
        have hlt : key y < key x := lt_of_not_le h
        by_cases hx : key x = c
        · have hnone : (y :: ys).filter (fun z => key z == c) = [] := by
            rw [List.filter_eq_nil_iff]
            intro z hz
            have hzy : key z ≤ key y := by
              rcases hz with _ | hz
              · exact le_refl _
              · exact List.rel_of_pairwise_cons hl (by assumption)
            simp only [beq_iff_eq]
            omega
          rw [List.filter_cons_of_pos (by simpa using hx), hnone, hx]
          simp
        · rw [List.filter_cons_of_neg (by simpa using hx)]
          simp [hx]

theorem sortDescNat_go_perm (key : α → Nat) (l acc : List α) :
    (l.foldl (fun acc x => insortDescNat key x acc) acc).Perm (acc ++ l) := by
  induction l generalizing acc with
  | nil => simp
  | cons x xs ih =>
      simp only [List.foldl_cons]
      refine (ih (insortDescNat key x acc)).trans ?_
      refine ((insortDescNat_perm key x acc).append_right xs).trans ?_
      simpa using (@List.perm_middle _ x acc xs).symm

theorem sortDescNat_perm (key : α → Nat) (l : List α) :
    (sortDescNat key l).Perm l := by
  simpa using sortDescNat_go_perm key l []

theorem sortDescNat_go_pairwise (key : α → Nat) (l : List α) :
    ∀ acc, List.Pairwise (fun a b => key b ≤ key a) acc →
      List.Pairwise (fun a b => key b ≤ key a)
        (l.foldl (fun acc x => insortDescNat key x acc) acc) := by
  induction l with
  | nil => intro acc hacc; simpa using hacc
  | cons x xs ih =>
      intro acc hacc
      simpa using ih _ (insortDescNat_pairwise key x hacc)

theorem sortDescNat_pairwise (key : α → Nat) (l : List α) :
    List.Pairwise (fun a b => key b ≤ key a) (sortDescNat key l) :=
  sortDescNat_go_pairwise key l [] (by simp)

theorem sortDescNat_go_filter (key : α → Nat) (c : Nat) (l : List α) :
    ∀ acc, List.Pairwise (fun a b => key b ≤ key a) acc →
      (l.foldl (fun acc x => insortDescNat key x acc) acc).filter
          (fun y => key y == c)
        = acc.filter (fun y => key y == c) ++ l.filter (fun y => key y == c) := by
  induction l with
  | nil => intro acc hacc; simp
  | cons x xs ih =>
      intro acc hacc
      simp only [List.foldl_cons]
      rw [ih _ (insortDescNat_pairwise key x hacc)]
      rw [insortDescNat_filter key x hacc c]
      by_cases hx : key x = c
      · rw [if_pos hx, List.filter_cons_of_pos (by simpa using hx)]
        simp
      · rw [if_neg hx, List.filter_cons_of_neg (by simpa using hx)]

theorem sortDescNat_filter (key : α → Nat) (c : Nat) (l : List α) :
    (sortDescNat key l).filter (fun y => key y == c)
      = l.filter (fun y => key y == c) := by
  simpa using sortDescNat_go_filter key c l [] (by simp)

/-- C5: for a `tool_result` item with string content `s`, content longer
than 500 characters contributes its first 500 characters followed by the
fixed `"..."` marker; non-empty content of at most 500 characters is
included untruncated; empty content contributes no block. -/
theorem C5_tool_result_truncation (s : String) :
    (500 < s.length →
      itemParts (JVal.obj [("type", JVal.str "tool_result"),
          ("content", JVal.str s)])
        = Except.ok [JVal.str ("📋 工具结果:\n" ++ (s.take 500 ++ "..."))])
    ∧ (s ≠ "" → s.length ≤ 500 →
      itemParts (JVal.obj [("type", JVal.str "tool_result"),
          ("content", JVal.str s)])
        = Except.ok [JVal.str ("📋 工具结果:\n" ++ s)])
    ∧ (s = "" →
      itemParts (JVal.obj [("type", JVal.str "tool_result"),
          ("content", JVal.str s)])
        = Except.ok []) := by
  refine ⟨fun h => ?_, fun hs h => ?_, fun hs => ?_⟩
  · have hs : s ≠ "" := by
      intro he
      subst he
      simp at h
    simp [itemParts, objGet, List.lookup, pyTruthy, hs, pyLen, h, pySlice,
      pyAdd, pyStr]
  · simp [itemParts, objGet, List.lookup, pyTruthy, hs, pyLen,
      Nat.not_lt.mpr h, pySlice, pyAdd, pyStr]
  · subst hs
    rfl

/-- Witness for C5: a 600-character content string is truncated to its
first 500 characters plus the marker. -/
theorem C5_witness :
    itemParts (JVal.obj [("type", JVal.str "tool_result"),
        ("content", JVal.str (String.mk (List.replicate 600 'x')))])
      = Except.ok [JVal.str ("📋 工具结果:\n" ++
          (String.mk (List.replicate 500 'x') ++ "..."))] := by
  have h : 500 < (String.mk (List.replicate 600 'x')).length := by
    have h6 : (String.mk (List.replicate 600 'x')).length = 600 := by
      show (List.replicate 600 'x').length = 600
      rw [List.length_replicate]
    omega
  rw [(C5_tool_result_truncation (String.mk (List.replicate 600 'x'))).1 h]
  have ht : (String.mk (List.replicate 600 'x')).take 500
      = String.mk (List.replicate 500 'x') := by
    rw [String.take_eq]
    show String.mk ((List.replicate 600 'x').take 500) = _
    rw [List.take_replicate]
    norm_num
  rw [ht]

/-- C6: for a `tool_use` item, the detail suffix probes the input dict in
priority order `command` (value truncated to its first 100 characters),
then `file_path`, then `pattern`; with none of the keys present the
summary has no detail suffix. -/
theorem C6_tool_use_detail_priority (nm : String) (ifs : List (String × JVal)) :
    (∀ c : String, ifs.lookup "command" = some (JVal.str c) →
      itemParts (JVal.obj [("type", JVal.str "tool_use"), ("name", JVal.str nm),
          ("input", JVal.obj ifs)])
        = Except.ok [JVal.str ("🔧 [" ++ nm ++ (": " ++ c.take 100) ++ "]")])
    ∧ (∀ f : String, ifs.lookup "command" = none →
        ifs.lookup "file_path" = some (JVal.str f) →
      itemParts (JVal.obj [("type", JVal.str "tool_use"), ("name", JVal.str nm),
          ("input", JVal.obj ifs)])
        = Except.ok [JVal.str ("🔧 [" ++ nm ++ (": " ++ f) ++ "]")])
    ∧ (∀ p : String, ifs.lookup "command" = none →
        ifs.lookup "file_path" = none →
        ifs.lookup "pattern" = some (JVal.str p) →
      itemParts (JVal.obj [("type", JVal.str "tool_use"), ("name", JVal.str nm),
          ("input", JVal.obj ifs)])
        = Except.ok [JVal.str ("🔧 [" ++ nm ++ (": " ++ p) ++ "]")])
    ∧ (ifs.lookup "command" = none →
        ifs.lookup "file_path" = none →
        ifs.lookup "pattern" = none →
      itemParts (JVal.obj [("type", JVal.str "tool_use"), ("name", JVal.str nm),
          ("input", JVal.obj ifs)])
        = Except.ok [JVal.str ("🔧 [" ++ nm ++ "]")]) := by
  refine ⟨fun c hc => ?_, fun f hc hf => ?_, fun p hc hf hp => ?_,
    fun hc hf hp => ?_⟩
  · simp [itemParts, toolDesc, objGet, List.lookup, hc, pySlice, pyStr]
  · simp [itemParts, toolDesc, objGet, List.lookup, hc, hf, pyStr]
  · simp [itemParts, toolDesc, objGet, List.lookup, hc, hf, hp, pyStr]
  · simp [itemParts, toolDesc, objGet, List.lookup, hc, hf, hp, pyStr]

/-- Witness for C6: a 200-character command is truncated to its first 100
characters, and an input with none of the probed keys yields no suffix. -/
theorem C6_witness :
    itemParts (JVal.obj [("type", JVal.str "tool_use"), ("name", JVal.str "Bash"),
        ("input", JVal.obj [("command", JVal.str (String.mk (List.replicate 200 'x')))])])
      = Except.ok [JVal.str ("🔧 [" ++ "Bash" ++
          (": " ++ String.mk (List.replicate 100 'x')) ++ "]")]
    ∧ itemParts (JVal.obj [("type", JVal.str "tool_use"), ("name", JVal.str "Read"),
        ("input", JVal.obj [("other", JVal.num 3)])])
      = Except.ok [JVal.str ("🔧 [" ++ "Read" ++ "]")] := by
  constructor
  · rw [(C6_tool_use_detail_priority "Bash"
      [("command", JVal.str (String.mk (List.replicate 200 'x')))]).1
      (String.mk (List.replicate 200 'x')) rfl]
    have ht : (String.mk (List.replicate 200 'x')).take 100
        = String.mk (List.replicate 100 'x') := by
      rw [String.take_eq]
      show String.mk ((List.replicate 200 'x').take 100) = _
      rw [List.take_replicate]
      norm_num
    rw [ht]
  · exact (C6_tool_use_detail_priority "Read" [("other", JVal.num 3)]).2.2.2
      rfl rfl rfl

/-!
## Lemmas: the empty-content fallback never changes the result
-/

theorem applyFallback_of_lookup_none (mfs : List (String × JVal)) (c : JVal)
    (hc : mfs.lookup "content" = none) :
    applyFallback (JVal.obj mfs) c = c := by
  by_cases h : pyTruthy c = true
  · unfold applyFallback
    rw [if_pos h]
  · unfold applyFallback
    rw [if_neg h]
    show (if (objGet mfs "role" JVal.null == JVal.str "user") = true then
        match objGet mfs "content" JVal.null with
        | JVal.str s => JVal.str s
        | _ => c
      else c) = c
    simp only [objGet, hc, Option.getD]
    split <;> rfl

theorem applyFallback_of_lookup_str (mfs : List (String × JVal)) (s : String)
    (hc : mfs.lookup "content" = some (JVal.str s)) :
    applyFallback (JVal.obj mfs) (JVal.str s) = JVal.str s := by
  by_cases h : pyTruthy (JVal.str s) = true
  · unfold applyFallback
    rw [if_pos h]
  · unfold applyFallback
    rw [if_neg h]
    show (if (objGet mfs "role" JVal.null == JVal.str "user") = true then
        match objGet mfs "content" JVal.null with
        | JVal.str s => JVal.str s
        | _ => JVal.str s
      else JVal.str s) = JVal.str s
    simp only [objGet, hc, Option.getD]
    split <;> rfl

theorem applyFallback_of_lookup_not_str (mfs : List (String × JVal)) (v c : JVal)
    (hc : mfs.lookup "content" = some v) (hv : ∀ s, v ≠ JVal.str s) :
    applyFallback (JVal.obj mfs) c = c := by
  by_cases h : pyTruthy c = true
  · unfold applyFallback
    rw [if_pos h]
  · unfold applyFallback
    rw [if_neg h]
    show (if (objGet mfs "role" JVal.null == JVal.str "user") = true then
        match objGet mfs "content" JVal.null with
        | JVal.str s => JVal.str s
        | _ => c
      else c) = c
    simp only [objGet, hc, Option.getD]
    cases v with
    | str s => exact absurd rfl (hv s)
    | null => split <;> rfl
    | bool b => split <;> rfl
    | num n => split <;> rfl
    | arr xs => split <;> rfl
    | obj fs => split <;> rfl

theorem normalizeContent_eq (message : JVal) :
    normalizeContent message = normalizeContentNoFallback message := by
  cases message with
  | obj mfs =>
      unfold normalizeContent normalizeContentNoFallback pyGetD
      simp only [except_bind_ok]
      cases hc : mfs.lookup "content" with
      | none =>
          rw [objGet, hc]
          simp only [Option.getD]
          rw [show contentAfterList (JVal.str "") = Except.ok (JVal.str "") from rfl]
          simp only [except_bind_ok]
          rw [applyFallback_of_lookup_none mfs _ hc]
      | some v =>
          rw [objGet, hc]
          simp only [Option.getD]
          cases v with
          | str s =>
              rw [show contentAfterList (JVal.str s) = Except.ok (JVal.str s) from rfl]
              simp only [except_bind_ok]
              rw [applyFallback_of_lookup_str mfs s hc]
          | arr xs =>
              cases hE : contentAfterList (JVal.arr xs) with
              | error e => simp [hE]
              | ok c1 =>
                  simp only [hE, except_bind_ok]
                  rw [applyFallback_of_lookup_not_str mfs _ c1 hc (by intro s h; cases h)]
          | null =>
              rw [show contentAfterList JVal.null = Except.ok JVal.null from rfl]
              simp only [except_bind_ok]
              rw [applyFallback_of_lookup_not_str mfs _ _ hc (by intro s h; cases h)]
          | bool b =>
              rw [show contentAfterList (JVal.bool b) = Except.ok (JVal.bool b) from rfl]
              simp only [except_bind_ok]
              rw [applyFallback_of_lookup_not_str mfs _ _ hc (by intro s h; cases h)]
          | num n =>
              rw [show contentAfterList (JVal.num n) = Except.ok (JVal.num n) from rfl]
              simp only [except_bind_ok]
              rw [applyFallback_of_lookup_not_str mfs _ _ hc (by intro s h; cases h)]
          | obj fs =>
              rw [show contentAfterList (JVal.obj fs) = Except.ok (JVal.obj fs) from rfl]
              simp only [except_bind_ok]
              rw [applyFallback_of_lookup_not_str mfs _ _ hc (by intro s h; cases h)]
  | null => rfl
  | bool b => rfl
  | num n => rfl
  | str s => rfl
  | arr xs => rfl

/-- C10: the lines 197-201 empty-content fallback never changes the
per-record result — the content normalizer with the fallback is
extensionally equal to the normalizer without it, and so is the whole
per-line processing.  (When the fallback fires, the raw string it re-reads
is exactly the content value already in hand; list-shaped content never
satisfies its string test.) -/
theorem C10_fallback_redundant (data : JVal) :
    processLine data = processLineNoFallback data ∧
    (∀ message : JVal, normalizeContent message = normalizeContentNoFallback message) := by
  refine ⟨?_, normalizeContent_eq⟩
  cases data with
  | obj dfs =>
      unfold processLine processLineNoFallback
      simp only [normalizeContent_eq]
  | null => rfl
  | bool b => rfl
  | num n => rfl
  | str s => rfl
  | arr xs => rfl

/-!
## Lemmas: well-formed records never raise
-/

theorem toolDesc_ok (tool_input : JVal)
    (h : (match tool_input with
          | JVal.obj ifs => (ifs.lookup "command").all isStrB
          | _ => true) = true) :
    ∃ d : String, toolDesc tool_input = Except.ok d := by
  cases tool_input with
  | obj ifs =>
      cases hcmd : ifs.lookup "command" with
      | none =>
          by_cases hf : (ifs.lookup "file_path").isSome
          · refine ⟨": " ++ pyStr (objGet ifs "file_path" (JVal.str "")), ?_⟩
            simp [toolDesc, hcmd, hf]
          · by_cases hp : (ifs.lookup "pattern").isSome
            · refine ⟨": " ++ pyStr (objGet ifs "pattern" (JVal.str "")), ?_⟩
              simp [toolDesc, hcmd, hf, hp]
            · refine ⟨"", ?_⟩
              simp [toolDesc, hcmd, hf, hp]
      | some v =>
          have h' : Option.all isStrB (List.lookup "command" ifs) = true := h
          rw [hcmd] at h'
          cases v with
          | str c =>
              refine ⟨": " ++ c.take 100, ?_⟩
              simp [toolDesc, hcmd, objGet, pySlice, pyStr]
          | null => simp [Option.all, isStrB] at h'
          | bool b => simp [Option.all, isStrB] at h'
          | num n => simp [Option.all, isStrB] at h'
          | arr xs => simp [Option.all, isStrB] at h'
          | obj gs => simp [Option.all, isStrB] at h'
  | null => exact ⟨"", rfl⟩
  | bool b => exact ⟨"", rfl⟩
  | num n => exact ⟨"", rfl⟩
  | str s => exact ⟨"", rfl⟩
  | arr xs => exact ⟨"", rfl⟩

theorem itemParts_ok (item : JVal) (h : itemWf item = true) :
    ∃ parts, itemParts item = Except.ok parts ∧ ∀ p ∈ parts, isStrB p = true := by
  cases hE : itemParts item with
  | ok parts =>
      refine ⟨parts, rfl, ?_⟩
      cases item with
      | obj fs =>
          unfold itemWf at h
          simp only [Bool.and_eq_true] at h
          obtain ⟨⟨h1, h2⟩, h3⟩ := h
          by_cases ht : (objGet fs "type" (JVal.str "") == JVal.str "text") = true
          · have hstr : isStrB (objGet fs "text" (JVal.str "")) = true := by
              simpa [bne, ht] using h1
            simp only [itemParts, ht, if_pos] at hE
            simp only [Except.ok.injEq] at hE
            subst hE
            intro p hp
            simp only [List.mem_singleton] at hp
            subst hp
            exact hstr
          · by_cases hk : (objGet fs "type" (JVal.str "") == JVal.str "thinking") = true
            · by_cases htr : pyTruthy (objGet fs "thinking" (JVal.str "")) = true
              · simp only [itemParts, ht, hk, htr, if_pos, if_neg,
                  Bool.false_eq_true, not_false_eq_true, Except.ok.injEq] at hE
                subst hE
                intro p hp
                simp only [List.mem_singleton] at hp
                subst hp
                rfl
              · simp only [itemParts, ht, hk, htr, if_pos, if_neg,
                  Bool.false_eq_true, not_false_eq_true, Except.ok.injEq] at hE
                subst hE
                intro p hp
                simp at hp
            · by_cases hu : (objGet fs "type" (JVal.str "") == JVal.str "tool_use") = true
              · have hcmd : (match objGet fs "input" (JVal.obj []) with
                    | JVal.obj ifs => (ifs.lookup "command").all isStrB
                    | _ => true) = true := by
                  simpa [bne, hu] using h2
                obtain ⟨d, hd⟩ := toolDesc_ok _ hcmd
                simp only [itemParts, ht, hk, hu, hd, if_pos, if_neg,
                  Bool.false_eq_true, not_false_eq_true, except_bind_ok,
                  Except.ok.injEq] at hE
                subst hE
                intro p hp
                simp only [List.mem_singleton] at hp
                subst hp
                rfl
              · by_cases hr : (objGet fs "type" (JVal.str "")
                    == JVal.str "tool_result") = true
                · have hstr : isStrB (objGet fs "content" (JVal.str "")) = true := by
                    simpa [bne, hr] using h3
                  cases hcv : objGet fs "content" (JVal.str "") with
                  | str s =>
                      by_cases hne : pyTruthy (JVal.str s) = true
                      · by_cases h5 : 500 < s.length
                        · simp only [itemParts, ht, hk, hu, hr, hcv, hne, h5,
                            pyLen, pySlice, pyAdd, if_pos, if_neg,
                            Bool.false_eq_true, not_false_eq_true,
                            except_bind_ok, Except.ok.injEq] at hE
                          subst hE
                          intro p hp
                          simp only [List.mem_singleton] at hp
                          subst hp
                          rfl
                        · simp only [itemParts, ht, hk, hu, hr, hcv, hne, h5,
                            pyLen, if_pos, if_neg, Bool.false_eq_true,
                            not_false_eq_true, except_bind_ok,
                            Except.ok.injEq] at hE
                          subst hE
                          intro p hp
                          simp only [List.mem_singleton] at hp
                          subst hp
                          rfl
                      · simp only [itemParts, ht, hk, hu, hr, hcv, hne, if_pos,
                          if_neg, Bool.false_eq_true, not_false_eq_true,
                          Except.ok.injEq] at hE
                        subst hE
                        intro p hp
                        simp at hp
                  | null => rw [hcv] at hstr; simp [isStrB] at hstr
                  | bool b => rw [hcv] at hstr; simp [isStrB] at hstr
                  | num n => rw [hcv] at hstr; simp [isStrB] at hstr
                  | arr xs => rw [hcv] at hstr; simp [isStrB] at hstr
                  | obj gs => rw [hcv] at hstr; simp [isStrB] at hstr
                · simp only [itemParts, ht, hk, hu, hr, if_neg,
                    Bool.false_eq_true, not_false_eq_true,
                    Except.ok.injEq] at hE
                  subst hE
                  intro p hp
                  simp at hp
      | null =>
          simp only [itemParts, Except.ok.injEq] at hE
          subst hE
          intro p hp
          simp at hp
      | bool b =>
          simp only [itemParts, Except.ok.injEq] at hE
          subst hE
          intro p hp
          simp at hp
      | num n =>
          simp only [itemParts, Except.ok.injEq] at hE
          subst hE
          intro p hp
          simp at hp
      | str s =>
          simp only [itemParts, Except.ok.injEq] at hE
          subst hE
          intro p hp
          simp only [List.mem_singleton] at hp
          subst hp
          rfl
      | arr xs =>
          simp only [itemParts, Except.ok.injEq] at hE
          subst hE
          intro p hp
          simp at hp
  | error e =>
      exfalso
      cases item with
      | obj fs =>
          unfold itemWf at h
          simp only [Bool.and_eq_true] at h
          obtain ⟨⟨h1, h2⟩, h3⟩ := h
          by_cases ht : (objGet fs "type" (JVal.str "") == JVal.str "text") = true
          · simp [itemParts, ht] at hE
          · by_cases hk : (objGet fs "type" (JVal.str "") == JVal.str "thinking") = true
            · by_cases htr : pyTruthy (objGet fs "thinking" (JVal.str "")) = true <;>
                simp [itemParts, ht, hk, htr] at hE
            · by_cases hu : (objGet fs "type" (JVal.str "") == JVal.str "tool_use") = true
              · have hcmd : (match objGet fs "input" (JVal.obj []) with
                    | JVal.obj ifs => (ifs.lookup "command").all isStrB
                    | _ => true) = true := by
                  simpa [bne, hu] using h2
                obtain ⟨d, hd⟩ := toolDesc_ok _ hcmd
                simp [itemParts, ht, hk, hu, hd] at hE
              · by_cases hr : (objGet fs "type" (JVal.str "")
                    == JVal.str "tool_result") = true
                · have hstr : isStrB (objGet fs "content" (JVal.str "")) = true := by
                    simpa [bne, hr] using h3
                  cases hcv : objGet fs "content" (JVal.str "") with
                  | str s =>
                      by_cases hne : pyTruthy (JVal.str s) = true
                      · by_cases h5 : 500 < s.length <;>
                          simp [itemParts, ht, hk, hu, hr, hcv, hne, h5, pyLen,
                            pySlice, pyAdd] at hE
                      · simp [itemParts, ht, hk, hu, hr, hcv, hne] at hE
                  | null => rw [hcv] at hstr; simp [isStrB] at hstr
                  | bool b => rw [hcv] at hstr; simp [isStrB] at hstr
                  | num n => rw [hcv] at hstr; simp [isStrB] at hstr
                  | arr xs => rw [hcv] at hstr; simp [isStrB] at hstr
                  | obj gs => rw [hcv] at hstr; simp [isStrB] at hstr
                · simp [itemParts, ht, hk, hu, hr] at hE
      | null => simp [itemParts] at hE
      | bool b => simp [itemParts] at hE
      | num n => simp [itemParts] at hE
      | str s => simp [itemParts] at hE
      | arr xs => simp [itemParts] at hE

theorem textPartsOf_ok (items : List JVal) (h : items.all itemWf = true) :
    ∃ parts, textPartsOf items = Except.ok parts ∧ ∀ p ∈ parts, isStrB p = true := by
  induction items with
  | nil => exact ⟨[], rfl, by simp⟩
  | cons item rest ih =>
      simp only [List.all_cons, Bool.and_eq_true] at h
      obtain ⟨hi, hr⟩ := h
      obtain ⟨ps, hps, hstr1⟩ := itemParts_ok item hi
      obtain ⟨qs, hqs, hstr2⟩ := ih hr
      refine ⟨ps ++ qs, ?_, ?_⟩
      · simp [textPartsOf, hps, hqs]
      · intro p hp
        rcases List.mem_append.mp hp with h1 | h2
        · exact hstr1 p h1
        · exact hstr2 p h2

theorem strAll_ok (l : List JVal) (h : ∀ p ∈ l, isStrB p = true) :
    ∃ ss : List String, strAll l = Except.ok ss := by
  induction l with
  | nil => exact ⟨[], rfl⟩
  | cons p rest ih =>
      obtain ⟨ss, hss⟩ := ih (fun q hq => h q (List.mem_cons_of_mem _ hq))
      have hp := h p (List.mem_cons_self _ _)
      cases p with
      | str s =>
          refine ⟨s :: ss, ?_⟩
          simp [strAll, asStr, hss]
      | null => simp [isStrB] at hp
      | bool b => simp [isStrB] at hp
      | num n => simp [isStrB] at hp
      | arr xs => simp [isStrB] at hp
      | obj fs => simp [isStrB] at hp

theorem pyJoinNL_ok (parts : List JVal) (h : ∀ p ∈ parts, isStrB p = true) :
    ∃ s, pyJoinNL parts = Except.ok s := by
  obtain ⟨ss, hss⟩ := strAll_ok (parts.filter (fun v => pyTruthy v))
    (fun p hp => h p (List.mem_of_mem_filter hp))
  exact ⟨String.intercalate "\n" ss, by simp [pyJoinNL, hss]⟩

theorem contentAfterList_arr_ok (items : List JVal) (h : items.all itemWf = true) :
    ∃ s, contentAfterList (JVal.arr items) = Except.ok (JVal.str s) := by
  obtain ⟨parts, hp, hstr⟩ := textPartsOf_ok items h
  obtain ⟨s, hs⟩ := pyJoinNL_ok parts hstr
  exact ⟨s, by simp [contentAfterList, hp, hs]⟩

theorem normalizeContent_ok (mfs : List (String × JVal))
    (h : contentWf (objGet mfs "content" (JVal.str "")) = true) :
    ∃ c, normalizeContent (JVal.obj mfs) = Except.ok c
      ∧ (isStrB c = true ∨ pyTruthy c = false) := by
  cases hc0 : objGet mfs "content" (JVal.str "") with
  | arr items =>
      rw [hc0] at h
      have hitems : items.all itemWf = true := h
      obtain ⟨s, hs⟩ := contentAfterList_arr_ok items hitems
      have hlk : mfs.lookup "content" = some (JVal.arr items) := by
        cases hl : mfs.lookup "content" with
        | none => rw [objGet, hl] at hc0; simp at hc0
        | some w =>
            rw [objGet, hl] at hc0
            simp only [Option.getD_some] at hc0
            rw [hc0]
      refine ⟨JVal.str s, ?_, Or.inl rfl⟩
      unfold normalizeContent pyGetD
      simp only [except_bind_ok]
      rw [hc0, hs]
      simp only [except_bind_ok]
      rw [applyFallback_of_lookup_not_str mfs _ _ hlk (by intro t ht; cases ht)]
  | str s =>
      refine ⟨JVal.str s, ?_, Or.inl rfl⟩
      unfold normalizeContent pyGetD
      simp only [except_bind_ok]
      rw [hc0]
      rw [show contentAfterList (JVal.str s) = Except.ok (JVal.str s) from rfl]
      simp only [except_bind_ok]
      cases hl : mfs.lookup "content" with
      | none => rw [applyFallback_of_lookup_none mfs _ hl]
      | some w =>
          have hw : w = JVal.str s := by
            rw [objGet, hl] at hc0
            simpa using hc0
          subst hw
          rw [applyFallback_of_lookup_str mfs s hl]
  | null =>
      rw [hc0] at h
      have hlk : mfs.lookup "content" = some JVal.null := by
        cases hl : mfs.lookup "content" with
        | none => rw [objGet, hl] at hc0; simp at hc0
        | some w =>
            rw [objGet, hl] at hc0
            simp only [Option.getD_some] at hc0
            rw [hc0]
      refine ⟨JVal.null, ?_, Or.inr (by
        have h2 : (!pyTruthy (JVal.null)) = true := h
        simpa using h2)⟩
      unfold normalizeContent pyGetD
      simp only [except_bind_ok]
      rw [hc0]
      rw [show contentAfterList JVal.null = Except.ok JVal.null from rfl]
      simp only [except_bind_ok]
      rw [applyFallback_of_lookup_not_str mfs _ _ hlk (by intro t ht; cases ht)]
  | bool b =>
      rw [hc0] at h
      have hlk : mfs.lookup "content" = some (JVal.bool b) := by
        cases hl : mfs.lookup "content" with
        | none => rw [objGet, hl] at hc0; simp at hc0
        | some w =>
            rw [objGet, hl] at hc0
            simp only [Option.getD_some] at hc0
            rw [hc0]
      refine ⟨JVal.bool b, ?_, Or.inr (by
        have h2 : (!pyTruthy (JVal.bool b)) = true := h
        simpa using h2)⟩
      unfold normalizeContent pyGetD
      simp only [except_bind_ok]
      rw [hc0]
      rw [show contentAfterList (JVal.bool b) = Except.ok (JVal.bool b) from rfl]
      simp only [except_bind_ok]
      rw [applyFallback_of_lookup_not_str mfs _ _ hlk (by intro t ht; cases ht)]
  | num n =>
      rw [hc0] at h
      have hlk : mfs.lookup "content" = some (JVal.num n) := by
        cases hl : mfs.lookup "content" with
        | none => rw [objGet, hl] at hc0; simp at hc0
        | some w =>
            rw [objGet, hl] at hc0
            simp only [Option.getD_some] at hc0
            rw [hc0]
      refine ⟨JVal.num n, ?_, Or.inr (by
        have h2 : (!pyTruthy (JVal.num n)) = true := h
        simpa using h2)⟩
      unfold normalizeContent pyGetD
      simp only [except_bind_ok]
      rw [hc0]
      rw [show contentAfterList (JVal.num n) = Except.ok (JVal.num n) from rfl]
      simp only [except_bind_ok]
      rw [applyFallback_of_lookup_not_str mfs _ _ hlk (by intro t ht; cases ht)]
  | obj gs =>
      rw [hc0] at h
      have hlk : mfs.lookup "content" = some (JVal.obj gs) := by
        cases hl : mfs.lookup "content" with
        | none => rw [objGet, hl] at hc0; simp at hc0
        | some w =>
            rw [objGet, hl] at hc0
            simp only [Option.getD_some] at hc0
            rw [hc0]
      refine ⟨JVal.obj gs, ?_, Or.inr (by
        have h2 : (!pyTruthy (JVal.obj gs)) = true := h
        simpa using h2)⟩
      unfold normalizeContent pyGetD
      simp only [except_bind_ok]
      rw [hc0]
      rw [show contentAfterList (JVal.obj gs) = Except.ok (JVal.obj gs) from rfl]
      simp only [except_bind_ok]
      rw [applyFallback_of_lookup_not_str mfs _ _ hlk (by intro t ht; cases ht)]

theorem processLine_ok (d : JVal) (h : recordWf d = true) :
    ∃ r, processLine d = Except.ok r := by
  cases d with
  | obj dfs =>
      unfold recordWf at h
      by_cases htype : (objGet dfs "type" JVal.null == JVal.str "user"
          || objGet dfs "type" JVal.null == JVal.str "assistant") = true
      · simp only [htype, if_true] at h
        cases hm : objGet dfs "message" (JVal.obj []) with
        | obj mfs =>
            rw [hm] at h
            have h' : contentWf (objGet mfs "content" (JVal.str "")) = true := h
            obtain ⟨c, hnc, hcs⟩ := normalizeContent_ok mfs h'
            by_cases hpt : pyTruthy c = true
            · rcases hcs with hstr | hfalsy
              · cases c with
                | str s =>
                    by_cases hst : (pyStrip s == "") = true
                    · have hstP : pyStrip s = "" := by simpa using hst
                      exact ⟨none,
                        by simp [processLine, htype, hm, hnc, hpt, hst, hstP]⟩
                    · have hstP : ¬ pyStrip s = "" := by simpa using hst
                      refine ⟨some
                        { type := objGet dfs "type" JVal.null
                          content := s
                          timestamp := objGet dfs "timestamp" JVal.null
                          uuid := objGet dfs "uuid" JVal.null
                          cwd := objGet dfs "cwd" (JVal.str "")
                          model := objGet mfs "model" (JVal.str "") }, ?_⟩
                      simp [processLine, htype, hm, hnc, hpt, hst, hstP]
                | null => simp [isStrB] at hstr
                | bool b => simp [isStrB] at hstr
                | num n => simp [isStrB] at hstr
                | arr xs => simp [isStrB] at hstr
                | obj gs => simp [isStrB] at hstr
              · rw [hfalsy] at hpt
                exact absurd hpt (by simp)
            · exact ⟨none, by simp [processLine, htype, hm, hnc, hpt]⟩
        | null => rw [hm] at h; simp at h
        | bool b => rw [hm] at h; simp at h
        | num n => rw [hm] at h; simp at h
        | str s => rw [hm] at h; simp at h
        | arr xs => rw [hm] at h; simp at h
      · exact ⟨none, by simp [processLine, htype]⟩
  | null => simp [recordWf] at h
  | bool b => simp [recordWf] at h
  | num n => simp [recordWf] at h
  | str s => simp [recordWf] at h
  | arr xs => simp [recordWf] at h

/-- Under the well-formedness conditions the reader never raises and
returns exactly the per-line derivations of the decodable lines, in file
order. -/
theorem get_session_messages_wf_eq (lines : List (Option JVal))
    (h : ∀ l ∈ lines, lineWf l = true) :
    get_session_messages lines
      = Except.ok (lines.filterMap (fun l? => l?.bind derivedMessage)) := by
  induction lines with
  | nil => rfl
  | cons l rest ih =>
      have hrest := ih (fun x hx => h x (List.mem_cons_of_mem _ hx))
      cases l with
      | none =>
          rw [show get_session_messages (none :: rest)
              = get_session_messages rest from rfl, hrest]
          simp [List.filterMap_cons]
      | some d =>
          have hwf : recordWf d = true := h (some d) (List.mem_cons_self _ _)
          obtain ⟨r, hr⟩ := processLine_ok d hwf
          have hder : derivedMessage d = r := by simp [derivedMessage, hr]
          unfold get_session_messages
          rw [hr]
          simp only [except_bind_ok]
          rw [hrest]
          simp only [except_bind_ok]
          cases r with
          | none => simp [List.filterMap_cons, hder]
          | some msg => simp [List.filterMap_cons, hder]

/-- A record that produces a display message produces one whose content
does not trim to empty. -/
theorem processLine_some_content (d : JVal) (msg : DisplayMessage)
    (h : processLine d = Except.ok (some msg)) :
    (pyStrip msg.content == "") = false := by
  cases d with
  | obj dfs =>
      unfold processLine at h
      by_cases htype : (objGet dfs "type" JVal.null == JVal.str "user"
          || objGet dfs "type" JVal.null == JVal.str "assistant") = true
      · simp only [htype, if_true] at h
        cases hn : normalizeContent (objGet dfs "message" (JVal.obj [])) with
        | error e => rw [hn] at h; simp at h
        | ok c =>
            rw [hn] at h
            simp only [except_bind_ok] at h
            by_cases hpt : pyTruthy c = true
            · simp only [hpt, if_true] at h
              cases c with
              | str s =>
                  by_cases hst : (pyStrip s == "") = true
                  · simp [hst] at h
                  · simp only [hst, if_neg, Bool.false_eq_true,
                      not_false_eq_true, Except.ok.injEq,
                      Option.some.injEq] at h
                    rw [← h]
                    simpa using hst
              | null => simp at h
              | bool b => simp at h
              | num n => simp at h
              | arr xs => simp at h
              | obj gs => simp at h
            · simp [hpt] at h
      · simp [htype] at h
  | null => simp [processLine] at h
  | bool b => simp [processLine] at h
  | num n => simp [processLine] at h
  | str s => simp [processLine] at h
  | arr xs => simp [processLine] at h

/-- Every display message the reader emits has non-empty trimmed content. -/
theorem get_session_messages_content_ne (lines : List (Option JVal))
    (ms : List DisplayMessage) (m : DisplayMessage)
    (hok : get_session_messages lines = Except.ok ms) (hm : m ∈ ms) :
    pyStrip m.content ≠ "" := by
  induction lines generalizing ms with
  | nil =>
      simp only [get_session_messages, Except.ok.injEq] at hok
      subst hok
      simp at hm
  | cons l rest ih =>
      cases l with
      | none => exact ih ms hok hm
      | some d =>
          unfold get_session_messages at hok
          cases hp : processLine d with
          | error e => rw [hp] at hok; simp at hok
          | ok r =>
              rw [hp] at hok
              simp only [except_bind_ok] at hok
              cases hr : get_session_messages rest with
              | error e => rw [hr] at hok; simp at hok
              | ok ms' =>
                  rw [hr] at hok
                  simp only [except_bind_ok, Except.ok.injEq] at hok
                  subst hok
                  cases r with
                  | none => exact ih ms' hr hm
                  | some msg =>
                      rcases List.mem_cons.mp hm with rfl | hm'
                      · have hb := processLine_some_content d m hp
                        intro hcon
                        rw [hcon] at hb
                        simp at hb
                      · exact ih ms' hr hm'

/-- The message count of the metadata scan depends only on the `type`
field of the decodable records. -/
theorem sessionScan_count (lines : List (Option JVal)) :
    ∀ (c : Nat) (f l : JVal) (c' : Nat) (f' l' : JVal),
      sessionScan lines c f l = Except.ok (c', f', l') →
      c' = c + countUA lines := by
  induction lines with
  | nil =>
      intro c f l c' f' l' h
      simp only [sessionScan, Except.ok.injEq, Prod.mk.injEq] at h
      simp [countUA, ← h.1]
  | cons ln rest ih =>
      intro c f l c' f' l' h
      cases ln with
      | none =>
          have hr := ih c f l c' f' l' h
          simpa [countUA, List.filterMap_cons] using hr
      | some d =>
          cases d with
          | obj dfs =>
              unfold sessionScan at h
              by_cases ht : (objGet dfs "type" JVal.null == JVal.str "user"
                  || objGet dfs "type" JVal.null == JVal.str "assistant") = true
              · simp only [ht, if_true] at h
                have hcnt : countUA (some (JVal.obj dfs) :: rest)
                    = countUA rest + 1 := by
                  simp [countUA, List.filterMap_cons, List.filter_cons, ht]
                by_cases hts : pyTruthy (objGet dfs "timestamp" JVal.null) = true
                · simp only [hts, if_true] at h
                  have := ih _ _ _ _ _ _ h
                  omega
                · simp only [hts, if_false, Bool.false_eq_true,
                    not_false_eq_true, if_neg] at h
                  have := ih _ _ _ _ _ _ h
                  omega
              · simp only [ht, Bool.false_eq_true, not_false_eq_true,
                  if_neg] at h
                have := ih _ _ _ _ _ _ h
                have hcnt : countUA (some (JVal.obj dfs) :: rest)
                    = countUA rest := by
                  simp [countUA, List.filterMap_cons, List.filter_cons, ht]
                omega
          | null => simp [sessionScan] at h
          | bool b => simp [sessionScan] at h
          | num n => simp [sessionScan] at h
          | str s => simp [sessionScan] at h
          | arr xs => simp [sessionScan] at h

/-- C3, counterexample.  A session log containing a malformed line, a
valid "user" record and a further line that parses as valid JSON (the
empty array) makes `get_session_messages` raise an attribute error
instead of returning the messages of the valid lines. -/
theorem C3_counterexample :
    get_session_messages
        [none,
         some (JVal.obj [("type", JVal.str "user"),
                         ("message", JVal.obj [("content", JVal.str "hi")])]),
         some (JVal.arr [])]
      = Except.error PyErr.attributeError := rfl

/-- C3, amended.  For every session log mixing undecodable lines with
lines that decode to well-formed records, `get_session_messages` returns
exactly the per-record display messages of the decodable lines, in
original file order; undecodable lines contribute nothing and cause no
failure.  (The original claim fails because a line that decodes to
valid JSON of an unexpected shape — e.g. a bare number or array — raises
an uncaught attribute error.) -/
theorem C3_amended (lines : List (Option JVal))
    (h : ∀ l ∈ lines, lineWf l = true) :
    get_session_messages lines
      = Except.ok (lines.filterMap (fun l? => l?.bind derivedMessage)) :=
  get_session_messages_wf_eq lines h

/-- Witness for C3 at a concrete mixed log: the two malformed lines
disappear, the "hi" record is kept, the whitespace-content record is
dropped. -/
theorem C3_witness :
    get_session_messages exC3lines
      = Except.ok [{ type := JVal.str "user", content := "hi",
                     timestamp := JVal.null, uuid := JVal.null,
                     cwd := JVal.str "", model := JVal.str "" }] := by
  rw [C3_amended exC3lines (by
    have hall : exC3lines.all lineWf = true := rfl
    exact fun l hl => List.all_eq_true.mp hall l hl)]
  rfl

/-- C4: a "user"/"assistant" record whose content normalizes to a string
that trims to empty is dropped by the reader; every emitted display
message has non-empty trimmed content; and the `message_count` of the
session index counts decodable "user"/"assistant" records by their `type`
field alone, independent of content. -/
theorem C4_empty_dropped_still_counted :
    (∀ (dfs : List (String × JVal)) (s : String),
        (objGet dfs "type" JVal.null == JVal.str "user"
          || objGet dfs "type" JVal.null == JVal.str "assistant") = true →
        normalizeContent (objGet dfs "message" (JVal.obj []))
          = Except.ok (JVal.str s) →
        pyStrip s = "" →
        processLine (JVal.obj dfs) = Except.ok none)
    ∧ (∀ (lines : List (Option JVal)) (ms : List DisplayMessage)
          (m : DisplayMessage),
        get_session_messages lines = Except.ok ms → m ∈ ms →
        pyStrip m.content ≠ "")
    ∧ (∀ (lines : List (Option JVal)) (c : Nat) (f l : JVal),
        sessionScan lines 0 JVal.null JVal.null = Except.ok (c, f, l) →
        c = countUA lines) := by
  refine ⟨?_, get_session_messages_content_ne, ?_⟩
  · intro dfs s ht hn hs
    by_cases hE : s = ""
    · subst hE
      simp [processLine, ht, hn, pyTruthy]
    · simp [processLine, ht, hn, pyTruthy, hE, hs]
  · intro lines c f l h
    simpa using sessionScan_count lines 0 JVal.null JVal.null c f l h

/-- Witness for C4: the whitespace-content "user" record is dropped by the
reader, the "hi" record's emitted content does not trim to empty, and the
metadata scan still counts the whitespace-content record. -/
theorem C4_witness :
    processLine (JVal.obj exC4emptyFields) = Except.ok none
    ∧ pyStrip ({ type := JVal.str "user", content := "hi",
                 timestamp := JVal.null, uuid := JVal.null,
                 cwd := JVal.str "", model := JVal.str "" }
        : DisplayMessage).content ≠ ""
    ∧ (1 : Nat) = countUA [some (JVal.obj exC4emptyFields), none] := by
  refine ⟨?_, ?_, ?_⟩
  · exact C4_empty_dropped_still_counted.1 exC4emptyFields "  " (by decide)
      (by rfl) (by decide)
  · exact C4_empty_dropped_still_counted.2.1 [some exRecHi]
      [{ type := JVal.str "user", content := "hi", timestamp := JVal.null,
         uuid := JVal.null, cwd := JVal.str "", model := JVal.str "" }]
      _ (by rfl) (by simp)
  · exact C4_empty_dropped_still_counted.2.2
      [some (JVal.obj exC4emptyFields), none] 1 JVal.null JVal.null (by rfl)

/-!
## Lemmas: the statistics pass never raises on well-formed inputs
-/

theorem historyScan_ok (dateOf : Int → String) (hourOf : Int → Nat)
    (entries : List JVal) :
    (∀ e ∈ entries, histEntryWf e = true) →
    ∀ daily hourly, ∃ out,
      historyScan dateOf hourOf entries daily hourly = Except.ok out := by
  induction entries with
  | nil => exact fun _ d hh => ⟨(d, hh), rfl⟩
  | cons e rest ih =>
      intro h d hh
      have he := h e (List.mem_cons_self _ _)
      have hr := fun x hx => h x (List.mem_cons_of_mem _ hx)
      cases e with
      | obj efs =>
          by_cases hts : pyTruthy (objGet efs "timestamp" JVal.null) = true
          · have he' : (!pyTruthy (objGet efs "timestamp" JVal.null)
                || (asNumeric (objGet efs "timestamp" JVal.null)).isSome)
                = true := he
            have hnum : (asNumeric (objGet efs "timestamp" JVal.null)).isSome
                = true := by simpa [hts] using he'
            obtain ⟨t, htn⟩ := Option.isSome_iff_exists.mp hnum
            obtain ⟨out, hout⟩ :=
              ih hr (bump d (dateOf t)) (bump hh (hourOf t))
            refine ⟨out, ?_⟩
            simp [historyScan, hts, htn, hout]
          · obtain ⟨out, hout⟩ := ih hr d hh
            exact ⟨out, by simp [historyScan, hts, hout]⟩
      | null => simp [histEntryWf] at he
      | bool b => simp [histEntryWf] at he
      | num n => simp [histEntryWf] at he
      | str s => simp [histEntryWf] at he
      | arr xs => simp [histEntryWf] at he

theorem toolScan_ok (items : List JVal) :
    (∀ i ∈ items, statsItemWf i = true) →
    ∀ tools, ∃ out, toolScan items tools = Except.ok out := by
  induction items with
  | nil => exact fun _ tools => ⟨tools, rfl⟩
  | cons item rest ih =>
      intro h tools
      have hi := h item (List.mem_cons_self _ _)
      have hr := fun x hx => h x (List.mem_cons_of_mem _ hx)
      cases item with
      | obj ifs =>
          by_cases htu : (objGet ifs "type" JVal.null == JVal.str "tool_use") = true
          · have hhash : pyHashable (objGet ifs "name" (JVal.str "unknown"))
                = true := by
              have hi' : (!(objGet ifs "type" JVal.null == JVal.str "tool_use")
                  || pyHashable (objGet ifs "name" (JVal.str "unknown")))
                  = true := hi
              simpa [htu] using hi'
            obtain ⟨out, hout⟩ := ih hr (bump tools (objGet ifs "name" (JVal.str "unknown")))
            refine ⟨out, ?_⟩
            simp [toolScan, htu, bumpHash, hhash, hout]
          · obtain ⟨out, hout⟩ := ih hr tools
            exact ⟨out, by simp [toolScan, htu, hout]⟩
      | null => obtain ⟨out, hout⟩ := ih hr tools; exact ⟨out, by simp [toolScan, hout]⟩
      | bool b => obtain ⟨out, hout⟩ := ih hr tools; exact ⟨out, by simp [toolScan, hout]⟩
      | num n => obtain ⟨out, hout⟩ := ih hr tools; exact ⟨out, by simp [toolScan, hout]⟩
      | str s => obtain ⟨out, hout⟩ := ih hr tools; exact ⟨out, by simp [toolScan, hout]⟩
      | arr xs => obtain ⟨out, hout⟩ := ih hr tools; exact ⟨out, by simp [toolScan, hout]⟩

theorem statsLine_ok (d : JVal) (h : statsRecordWf d = true) (acc : SessAcc) :
    ∃ acc', statsLine d acc = Except.ok acc' := by
  cases hE : statsLine d acc with
  | ok a => exact ⟨a, rfl⟩
  | error e =>
      exfalso
      cases d with
      | obj dfs =>
          have h0 : (match objGet dfs "message" (JVal.obj []) with
              | JVal.obj mfs =>
                  (!pyTruthy (objGet mfs "model" JVal.null)
                    || pyHashable (objGet mfs "model" JVal.null))
                  && (match objGet mfs "content" (JVal.arr []) with
                      | JVal.arr items => items.all statsItemWf
                      | _ => true)
              | _ => true) = true := h
          by_cases htype : (objGet dfs "type" JVal.null == JVal.str "user"
              || objGet dfs "type" JVal.null == JVal.str "assistant") = true <;>
          · cases hm : objGet dfs "message" (JVal.obj []) with
            | obj mfs =>
                rw [hm] at h0
                have h' : ((!pyTruthy (objGet mfs "model" JVal.null)
                    || pyHashable (objGet mfs "model" JVal.null))
                    && (match objGet mfs "content" (JVal.arr []) with
                        | JVal.arr items => items.all statsItemWf
                        | _ => true)) = true := h0
                simp only [Bool.and_eq_true] at h'
                obtain ⟨h1, h2⟩ := h'
                by_cases hmod : pyTruthy (objGet mfs "model" JVal.null) = true
                · have hhash : pyHashable (objGet mfs "model" JVal.null)
                      = true := by simpa [hmod] using h1
                  cases hcont : objGet mfs "content" (JVal.arr []) with
                  | arr items =>
                      rw [hcont] at h2
                      obtain ⟨out, hout⟩ := toolScan_ok items
                        (fun i hi => List.all_eq_true.mp h2 i hi) acc.tool_usage
                      simp [statsLine, htype, hm, hmod, bumpHash, hhash, hcont,
                        hout] at hE
                  | null => simp [statsLine, htype, hm, hmod, bumpHash, hhash,
                      hcont] at hE
                  | bool b => simp [statsLine, htype, hm, hmod, bumpHash, hhash,
                      hcont] at hE
                  | num n => simp [statsLine, htype, hm, hmod, bumpHash, hhash,
                      hcont] at hE
                  | str s => simp [statsLine, htype, hm, hmod, bumpHash, hhash,
                      hcont] at hE
                  | obj gs => simp [statsLine, htype, hm, hmod, bumpHash, hhash,
                      hcont] at hE
                · cases hcont : objGet mfs "content" (JVal.arr []) with
                  | arr items =>
                      rw [hcont] at h2
                      obtain ⟨out, hout⟩ := toolScan_ok items
                        (fun i hi => List.all_eq_true.mp h2 i hi) acc.tool_usage
                      simp [statsLine, htype, hm, hmod, hcont, hout] at hE
                  | null => simp [statsLine, htype, hm, hmod, hcont] at hE
                  | bool b => simp [statsLine, htype, hm, hmod, hcont] at hE
                  | num n => simp [statsLine, htype, hm, hmod, hcont] at hE
                  | str s => simp [statsLine, htype, hm, hmod, hcont] at hE
                  | obj gs => simp [statsLine, htype, hm, hmod, hcont] at hE
            | null => simp [statsLine, htype, hm] at hE
            | bool b => simp [statsLine, htype, hm] at hE
            | num n => simp [statsLine, htype, hm] at hE
            | str s => simp [statsLine, htype, hm] at hE
            | arr xs => simp [statsLine, htype, hm] at hE
      | null => simp [statsRecordWf] at h
      | bool b => simp [statsRecordWf] at h
      | num n => simp [statsRecordWf] at h
      | str s => simp [statsRecordWf] at h
      | arr xs => simp [statsRecordWf] at h

theorem statsFileScan_ok (lines : List (Option JVal)) :
    (∀ l ∈ lines, statsLineWf l = true) →
    ∀ acc, ∃ out, statsFileScan lines acc = Except.ok out := by
  induction lines with
  | nil => exact fun _ acc => ⟨acc, rfl⟩
  | cons l rest ih =>
      intro h acc
      cases l with
      | none => exact ih (fun x hx => h x (List.mem_cons_of_mem _ hx)) acc
      | some d =>
          have hd : statsRecordWf d = true := h (some d) (List.mem_cons_self _ _)
          obtain ⟨a, ha⟩ := statsLine_ok d hd acc
          obtain ⟨out, hout⟩ := ih (fun x hx => h x (List.mem_cons_of_mem _ hx)) a
          exact ⟨out, by simp [statsFileScan, ha, hout]⟩

theorem filesScan_ok (files : List SessionFile) :
    (∀ f ∈ files, ∀ l ∈ f.lines, statsLineWf l = true) →
    ∀ acc, ∃ out, filesScan files acc = Except.ok out := by
  induction files with
  | nil => exact fun _ acc => ⟨acc, rfl⟩
  | cons f rest ih =>
      intro h acc
      obtain ⟨a, ha⟩ := statsFileScan_ok f.lines
        (h f (List.mem_cons_self _ _)) acc
      obtain ⟨out, hout⟩ := ih (fun x hx => h x (List.mem_cons_of_mem _ hx)) a
      exact ⟨out, by simp [filesScan, ha, hout]⟩

theorem statsProjectScan_ok (dirs : List ProjectDir)
    (h : ∀ dir ∈ dirs, ∀ f ∈ dir.sessionFiles, ∀ l ∈ f.lines,
      statsLineWf l = true) (projects : List Project) :
    ∀ acc, ∃ out, statsProjectScan dirs projects acc = Except.ok out := by
  induction projects with
  | nil => exact fun acc => ⟨acc, rfl⟩
  | cons p rest ih =>
      intro acc
      have hfiles : ∀ f ∈ (((dirs.find? (fun d => d.dirName == p.id)).map
          (fun d => d.sessionFiles)).getD []), ∀ l ∈ f.lines,
          statsLineWf l = true := by
        cases hfind : dirs.find? (fun d => d.dirName == p.id) with
        | none => simp [hfind]
        | some dir =>
            exact h dir (List.mem_of_find?_eq_some hfind)
      obtain ⟨a, ha⟩ := filesScan_ok _ hfiles
        { total_messages := acc.total_messages
          project_messages := 0
          model_usage := acc.model_usage
          tool_usage := acc.tool_usage }
      obtain ⟨out, hout⟩ := ih _
      refine ⟨out, ?_⟩
      simp only [statsProjectScan, ha, except_bind_ok]
      exact hout

theorem get_statistics_ok (dateOf : Int → String) (hourOf : Int → Nat)
    (historyLines : List (Option JVal)) (dirs : List ProjectDir)
    (h1 : ∀ l ∈ historyLines, histLineWf l = true)
    (h2 : ∀ dir ∈ dirs, ∀ f ∈ dir.sessionFiles, ∀ l ∈ f.lines,
      statsLineWf l = true) :
    ∃ st, get_statistics dateOf hourOf historyLines dirs = Except.ok st := by
  have hent : ∀ e ∈ read_history_file historyLines, histEntryWf e = true := by
    intro e he
    obtain ⟨l, hl, hid⟩ := List.mem_filterMap.mp he
    cases l with
    | none => cases hid
    | some v =>
        have : v = e := by simpa using hid
        subst this
        exact h1 (some v) hl
  obtain ⟨⟨daily, hourly⟩, hhist⟩ :=
    historyScan_ok dateOf hourOf (read_history_file historyLines) hent [] []
  obtain ⟨acc, hacc⟩ := statsProjectScan_ok dirs h2 (get_all_projects dirs)
    { total_sessions := 0
      total_messages := 0
      model_usage := []
      tool_usage := []
      projects_by_activity := [] }
  cases hE : get_statistics dateOf hourOf historyLines dirs with
  | ok st => exact ⟨st, rfl⟩
  | error e =>
      exfalso
      simp only [get_statistics, hhist, except_bind_ok, hacc] at hE
      exact Except.noConfusion hE

/-- C1, counterexample.  A line that parses as valid JSON (the number 5)
makes `get_session_messages` raise an attribute error, so the error branch
beyond the recovered decode failure is reachable. -/
theorem C1_counterexample :
    get_session_messages [some (JVal.num 5)]
      = Except.error PyErr.attributeError := rfl

/-- C1, amended.  The per-line decode failure is always recovered locally
(a failed line is skipped and the scan continues), and for inputs whose
decodable lines are well-formed records both `get_session_messages` and
`get_statistics` complete without error; but a line that decodes to valid
JSON of an unexpected shape (non-object record, non-object message,
non-string sliced values, unhashable counter keys) raises an uncaught
attribute/type error. -/
theorem C1_amended :
    (∀ lines : List (Option JVal),
        get_session_messages (none :: lines) = get_session_messages lines)
    ∧ (∀ lines : List (Option JVal), (∀ l ∈ lines, lineWf l = true) →
        ∃ ms, get_session_messages lines = Except.ok ms)
    ∧ (∀ (dateOf : Int → String) (hourOf : Int → Nat)
          (historyLines : List (Option JVal)) (dirs : List ProjectDir),
        (∀ l ∈ historyLines, histLineWf l = true) →
        (∀ dir ∈ dirs, ∀ f ∈ dir.sessionFiles, ∀ l ∈ f.lines,
          statsLineWf l = true) →
        ∃ st, get_statistics dateOf hourOf historyLines dirs
          = Except.ok st) := by
  refine ⟨fun lines => rfl, ?_, get_statistics_ok⟩
  intro lines h
  exact ⟨_, get_session_messages_wf_eq lines h⟩

/-- Witness for C1 at concrete inputs: skipping a malformed line, a
successful read, and successful statistics. -/
theorem C1_witness :
    get_session_messages (none :: [some exRecHi])
      = get_session_messages [some exRecHi]
    ∧ (∃ ms, get_session_messages [some exRecHi] = Except.ok ms)
    ∧ (∃ st, get_statistics (fun _ => "d") (fun _ => 0) exC1hist exC1dirs
        = Except.ok st) := by
  refine ⟨C1_amended.1 [some exRecHi],
    C1_amended.2.1 [some exRecHi] ?_,
    C1_amended.2.2 (fun _ => "d") (fun _ => 0) exC1hist exC1dirs ?_ ?_⟩
  · intro l hl
    rw [List.mem_singleton.mp hl]
    rfl
  · intro l hl
    have hall : exC1hist.all histLineWf = true := rfl
    exact List.all_eq_true.mp hall l hl
  · intro dir hdir f hf l hl
    have hdir' : dir = (⟨"p", [⟨"s", [some exRecHi, none]⟩]⟩ : ProjectDir) :=
      List.mem_singleton.mp hdir
    rw [hdir'] at hf
    have hf' : f = (⟨"s", [some exRecHi, none]⟩ : SessionFile) :=
      List.mem_singleton.mp hf
    rw [hf'] at hl
    have hall : ([some exRecHi, none].all statsLineWf) = true := rfl
    exact List.all_eq_true.mp hall l hl

/-!
## Lemmas: the lexicographic string order
-/

theorem charListLt_irrefl : ∀ a : List Char, charListLt a a = false := by
  intro a
  induction a with
  | nil => rfl
  | cons x xs ih => simp [charListLt, ih, lt_irrefl]

theorem charListLt_trans :
    ∀ a b c : List Char, charListLt a b = true → charListLt b c = true →
      charListLt a c = true := by
  intro a
  induction a with
  | nil =>
      intro b c hab hbc
      cases b with
      | nil => simp [charListLt] at hab
      | cons y ys =>
          cases c with
          | nil => simp [charListLt] at hbc
          | cons z zs => rfl
  | cons x xs ih =>
      intro b c hab hbc
      cases b with
      | nil => simp [charListLt] at hab
      | cons y ys =>
          cases c with
          | nil => simp [charListLt] at hbc
          | cons z zs =>
              simp only [charListLt, Bool.or_eq_true, Bool.and_eq_true,
                decide_eq_true_eq, beq_iff_eq] at hab hbc ⊢
              rcases hab with h1 | ⟨h1, h2⟩
              · rcases hbc with g1 | ⟨g1, g2⟩
                · exact Or.inl (lt_trans h1 g1)
                · exact Or.inl (g1 ▸ h1)
              · rcases hbc with g1 | ⟨g1, g2⟩
                · exact Or.inl (h1 ▸ g1)
                · exact Or.inr ⟨h1.trans g1, ih ys zs h2 g2⟩

theorem charListLt_connex :
    ∀ a b : List Char, charListLt a b = false → charListLt b a = false →
      a = b := by
  intro a
  induction a with
  | nil =>
      intro b h1 h2
      cases b with
      | nil => rfl
      | cons y ys => simp [charListLt] at h1
  | cons x xs ih =>
      intro b h1 h2
      cases b with
      | nil => simp [charListLt] at h2
      | cons y ys =>
          have h1a : ¬ x < y := by
            intro hlt
            have hT : charListLt (x :: xs) (y :: ys) = true := by
              simp [charListLt, hlt]
            rw [h1] at hT
            exact absurd hT (by simp)
          have h2a : ¬ y < x := by
            intro hlt
            have hT : charListLt (y :: ys) (x :: xs) = true := by
              simp [charListLt, hlt]
            rw [h2] at hT
            exact absurd hT (by simp)
          have hxy : x = y := le_antisymm (not_lt.mp h2a) (not_lt.mp h1a)
          subst hxy
          have h1b : charListLt xs ys = false := by
            cases hv : charListLt xs ys with
            | false => rfl
            | true =>
                have hT : charListLt (x :: xs) (x :: ys) = true := by
                  simp [charListLt, hv]
                rw [h1] at hT
                exact absurd hT (by simp)
          have h2b : charListLt ys xs = false := by
            cases hv : charListLt ys xs with
            | false => rfl
            | true =>
                have hT : charListLt (x :: ys) (x :: xs) = true := by
                  simp [charListLt, hv]
                rw [h2] at hT
                exact absurd hT (by simp)
          rw [ih ys h1b h2b]

theorem charListLt_asymm (a b : List Char) (h : charListLt a b = true) :
    charListLt b a = false := by
  cases hcv : charListLt b a with
  | false => rfl
  | true =>
      have htr := charListLt_trans a b a h hcv
      rw [charListLt_irrefl] at htr
      exact absurd htr (by simp)

theorem charListLt_nlt_trans (a b c : List Char)
    (h1 : charListLt a b = false) (h2 : charListLt b c = false) :
    charListLt a c = false := by
  cases hac : charListLt a c with
  | false => rfl
  | true =>
      exfalso
      cases hcb : charListLt c b with
      | true =>
          have := charListLt_trans a c b hac hcb
          rw [h1] at this
          exact absurd this (by simp)
      | false =>
          have hbc : b = c := charListLt_connex b c h2 hcb
          rw [← hbc] at hac
          rw [h1] at hac
          exact absurd hac (by simp)

theorem charListLt_nil_right (a : List Char) : charListLt a [] = false := by
  cases a <;> rfl

theorem eq_nil_of_charListLt_nil (b : List Char)
    (h : charListLt [] b = false) : b = [] := by
  cases b with
  | nil => rfl
  | cons y ys => simp [charListLt] at h

/-!
## Lemmas: the stable descending insertion sort by a string key
-/

theorem insortDescStr_perm (key : α → String) (x : α) (l : List α) :
    (insortDescStr key x l).Perm (x :: l) := by
  induction l with
  | nil => exact List.Perm.refl _
  | cons y ys ih =>
      by_cases h : charListLt (key y).data (key x).data = true
      · simp only [insortDescStr, if_pos h]
        exact List.Perm.refl _
      · simp only [insortDescStr, if_neg h]
        exact (ih.cons y).trans (List.Perm.swap x y ys)

theorem insortDescStr_mem {key : α → String} {x z : α} {l : List α}
    (hz : z ∈ insortDescStr key x l) : z = x ∨ z ∈ l := by
  have := (insortDescStr_perm key x l).mem_iff.mp hz
  simpa using this

theorem insortDescStr_pairwise (key : α → String) (x : α) {l : List α}
    (hl : List.Pairwise
      (fun a b => charListLt (key a).data (key b).data = false) l) :
    List.Pairwise (fun a b => charListLt (key a).data (key b).data = false)
      (insortDescStr key x l) := by
  induction l with
  | nil => simp [insortDescStr]
  | cons y ys ih =>
      by_cases h : charListLt (key y).data (key x).data = true
      · simp only [insortDescStr, if_pos h]
        refine List.Pairwise.cons ?_ hl
        intro z hz
        rcases hz with _ | hz
        · exact charListLt_asymm _ _ h
        · exact charListLt_nlt_trans _ _ _ (charListLt_asymm _ _ h)
            (List.rel_of_pairwise_cons hl (by assumption))
      · simp only [insortDescStr, if_neg h]
        refine List.Pairwise.cons ?_ (ih hl.tail)
        intro z hz
        rcases insortDescStr_mem hz with rfl | hz
        · exact Bool.not_eq_true _ ▸ (by simpa using h)
        · exact List.rel_of_pairwise_cons hl hz

theorem sortDescStr_go_perm (key : α → String) (l acc : List α) :
    (l.foldl (fun acc x => insortDescStr key x acc) acc).Perm (acc ++ l) := by
  induction l generalizing acc with
  | nil => simp
  | cons x xs ih =>
      simp only [List.foldl_cons]
      refine (ih (insortDescStr key x acc)).trans ?_
      refine ((insortDescStr_perm key x acc).append_right xs).trans ?_
      simpa using (@List.perm_middle _ x acc xs).symm

theorem sortDescStr_perm (key : α → String) (l : List α) :
    (sortDescStr key l).Perm l := by
  simpa using sortDescStr_go_perm key l []

theorem sortDescStr_pairwise (key : α → String) (l : List α) :
    List.Pairwise (fun a b => charListLt (key a).data (key b).data = false)
      (sortDescStr key l) := by
  have hgo : ∀ acc, List.Pairwise
      (fun a b => charListLt (key a).data (key b).data = false) acc →
      List.Pairwise (fun a b => charListLt (key a).data (key b).data = false)
        (l.foldl (fun acc x => insortDescStr key x acc) acc) := by
    induction l with
    | nil => intro acc hacc; simpa using hacc
    | cons x xs ih =>
        intro acc hacc
        simpa using ih _ (insortDescStr_pairwise key x hacc)
  exact hgo [] (by simp)

/-!
## Lemmas: the session index under well-formed timestamps
-/

theorem sessionScan_wf_ok (lines : List (Option JVal)) :
    (∀ l ∈ lines, sessLineWf l = true) →
    ∀ (c : Nat) (f l0 : JVal), nullOrStr l0 = true →
      ∃ (c' : Nat) (f' l' : JVal),
        sessionScan lines c f l0 = Except.ok (c', f', l')
          ∧ nullOrStr l' = true := by
  induction lines with
  | nil => exact fun _ c f l0 h0 => ⟨c, f, l0, rfl, h0⟩
  | cons ln rest ih =>
      intro h c f l0 h0
      have hl := h ln (List.mem_cons_self _ _)
      have hr := fun x hx => h x (List.mem_cons_of_mem _ hx)
      cases ln with
      | none => exact ih hr c f l0 h0
      | some d =>
          cases d with
          | obj dfs =>
              by_cases ht : (objGet dfs "type" JVal.null == JVal.str "user"
                  || objGet dfs "type" JVal.null == JVal.str "assistant") = true
              · by_cases hts : pyTruthy (objGet dfs "timestamp" JVal.null) = true
                · have hstr : isStrB (objGet dfs "timestamp" JVal.null)
                      = true := by
                    have hl' : (!pyTruthy (objGet dfs "timestamp" JVal.null)
                        || isStrB (objGet dfs "timestamp" JVal.null))
                        = true := hl
                    simpa [hts] using hl'
                  obtain ⟨c', f', l', hscan, hP⟩ := ih hr (c + 1)
                    (if f == JVal.null then objGet dfs "timestamp" JVal.null
                     else f)
                    (objGet dfs "timestamp" JVal.null)
                    (by simp [nullOrStr, hstr])
                  exact ⟨c', f', l', by simp [sessionScan, ht, hts, hscan], hP⟩
                · obtain ⟨c', f', l', hscan, hP⟩ := ih hr (c + 1) f l0 h0
                  exact ⟨c', f', l', by simp [sessionScan, ht, hts, hscan], hP⟩
              · obtain ⟨c', f', l', hscan, hP⟩ := ih hr c f l0 h0
                exact ⟨c', f', l', by simp [sessionScan, ht, hscan], hP⟩
          | null => simp [sessLineWf] at hl
          | bool b => simp [sessLineWf] at hl
          | num n => simp [sessLineWf] at hl
          | str s => simp [sessLineWf] at hl
          | arr xs => simp [sessLineWf] at hl

theorem sessionMetas_ok (pid : String) (files : List SessionFile) :
    (∀ f ∈ files, ∀ l ∈ f.lines, sessLineWf l = true) →
    ∃ us, sessionMetas pid files = Except.ok us
      ∧ ∀ m ∈ us, nullOrStr m.last_timestamp = true := by
  induction files with
  | nil => exact fun _ => ⟨[], rfl, by simp⟩
  | cons f rest ih =>
      intro h
      obtain ⟨c', f', l', hscan, hP⟩ := sessionScan_wf_ok f.lines
        (h f (List.mem_cons_self _ _)) 0 JVal.null JVal.null (by decide)
      obtain ⟨us, hus, husP⟩ := ih (fun x hx => h x (List.mem_cons_of_mem _ hx))
      refine ⟨{ id := f.stem, file := pid ++ "/" ++ f.stem ++ ".jsonl",
                message_count := c', first_timestamp := f',
                last_timestamp := l' } :: us, ?_, ?_⟩
      · simp [sessionMetas, hscan, hus]
      · intro m hm
        rcases List.mem_cons.mp hm with rfl | hm'
        · exact hP
        · exact husP m hm'

theorem sessKey_str_of_nullOrStr (m : SessionMeta)
    (h : nullOrStr m.last_timestamp = true) :
    sessKey m = JVal.str (sessKeyStr m) := by
  have hs : ∃ s, sessKey m = JVal.str s := by
    unfold sessKey
    cases hv : m.last_timestamp with
    | str s =>
        by_cases htr : pyTruthy (JVal.str s) = true
        · simp [htr]
        · simp [htr]
    | null => simp [pyTruthy]
    | bool b =>
        rw [hv, show nullOrStr (JVal.bool b) = false from rfl] at h
        exact absurd h (by simp)
    | num n =>
        rw [hv, show nullOrStr (JVal.num n) = false from rfl] at h
        exact absurd h (by simp)
    | arr xs =>
        rw [hv, show nullOrStr (JVal.arr xs) = false from rfl] at h
        exact absurd h (by simp)
    | obj gs =>
        rw [hv, show nullOrStr (JVal.obj gs) = false from rfl] at h
        exact absurd h (by simp)
  obtain ⟨s, hs⟩ := hs
  rw [hs]
  unfold sessKeyStr
  rw [hs]

theorem insortDescM_sess (x : SessionMeta) (l : List SessionMeta)
    (hx : sessKey x = JVal.str (sessKeyStr x))
    (hl : ∀ y ∈ l, sessKey y = JVal.str (sessKeyStr y)) :
    insortDescM sessKey x l = Except.ok (insortDescStr sessKeyStr x l) := by
  induction l with
  | nil => rfl
  | cons y ys ih =>
      have hy := hl y (List.mem_cons_self _ _)
      have hys := fun z hz => hl z (List.mem_cons_of_mem _ hz)
      by_cases hlt : charListLt (sessKeyStr y).data (sessKeyStr x).data = true
      · simp [insortDescM, insortDescStr, hy, hx, pyLtJ, hlt]
      · simp [insortDescM, insortDescStr, hy, hx, pyLtJ, hlt, ih hys]

theorem sortDescM_go_sess :
    ∀ (l acc : List SessionMeta),
      (∀ y ∈ l, sessKey y = JVal.str (sessKeyStr y)) →
      (∀ y ∈ acc, sessKey y = JVal.str (sessKeyStr y)) →
      List.foldlM (fun acc x => insortDescM sessKey x acc) acc l
        = Except.ok
            (List.foldl (fun acc x => insortDescStr sessKeyStr x acc) acc l) := by
  intro l
  induction l with
  | nil => intro acc _ _; rfl
  | cons x xs ih =>
      intro acc hl hacc
      have hx := hl x (List.mem_cons_self _ _)
      have hxs := fun z hz => hl z (List.mem_cons_of_mem _ hz)
      rw [List.foldlM_cons, insortDescM_sess x acc hx hacc]
      simp only [except_bind_ok, List.foldl_cons]
      refine ih _ hxs ?_
      intro y hy
      rcases insortDescStr_mem hy with rfl | hy'
      · exact hx
      · exact hacc y hy'

theorem sortDescM_sess (l : List SessionMeta)
    (hl : ∀ y ∈ l, sessKey y = JVal.str (sessKeyStr y)) :
    sortDescM sessKey l = Except.ok (sortDescStr sessKeyStr l) :=
  sortDescM_go_sess l [] hl (by simp)

theorem str_eq_empty_of_data_nil (s : String) (h : s.data = []) : s = "" := by
  cases s with
  | mk l =>
      simp only at h
      rw [h]

/-- C7: for every project whose session files decode to records with
string-or-absent timestamps, `get_project_sessions` returns the session
metadata sorted descending by the key `last_timestamp or ""`; it is a
permutation of the glob-order metadata; a session lacking any timestamp
has sort key `""` and therefore never precedes a timestamped one — all
no-timestamp sessions sit at the end of the descending order. -/
theorem C7_sessions_sorted (dirs : List ProjectDir) (pid : String)
    (hw : ∀ dir ∈ dirs, ∀ f ∈ dir.sessionFiles, ∀ l ∈ f.lines,
      sessLineWf l = true)
    (ss : List SessionMeta)
    (hok : get_project_sessions dirs pid = Except.ok ss) :
    List.Pairwise
      (fun a b => charListLt (sessKeyStr a).data (sessKeyStr b).data = false) ss
    ∧ (∀ us, unsortedSessions dirs pid = Except.ok us → ss.Perm us)
    ∧ (∀ s ∈ ss, pyTruthy s.last_timestamp = true →
        sessKey s = s.last_timestamp)
    ∧ (∀ s ∈ ss, s.last_timestamp = JVal.null → sessKeyStr s = "")
    ∧ List.Pairwise (fun a b => sessKeyStr a = "" → sessKeyStr b = "") ss := by
  have hus : ∃ us, unsortedSessions dirs pid = Except.ok us
      ∧ ∀ m ∈ us, nullOrStr m.last_timestamp = true := by
    unfold unsortedSessions
    cases hfind : dirs.find? (fun d => d.dirName == pid) with
    | none => exact ⟨[], rfl, by simp⟩
    | some dir =>
        exact sessionMetas_ok pid dir.sessionFiles
          (hw dir (List.mem_of_find?_eq_some hfind))
  obtain ⟨us, husE, husP⟩ := hus
  have hkeys : ∀ y ∈ us, sessKey y = JVal.str (sessKeyStr y) :=
    fun y hy => sessKey_str_of_nullOrStr y (husP y hy)
  have hsort := sortDescM_sess us hkeys
  have hss : ss = sortDescStr sessKeyStr us := by
    unfold get_project_sessions at hok
    rw [husE] at hok
    simp only [except_bind_ok] at hok
    rw [hsort] at hok
    simpa using hok.symm
  subst hss
  refine ⟨sortDescStr_pairwise _ _, ?_, ?_, ?_, ?_⟩
  · intro us' hus'
    rw [husE] at hus'
    simp only [Except.ok.injEq] at hus'
    rw [← hus']
    exact sortDescStr_perm _ _
  · intro s _ htr
    simp [sessKey, htr]
  · intro s _ hnull
    simp [sessKeyStr, sessKey, hnull, pyTruthy]
  · have hp := sortDescStr_pairwise sessKeyStr us
    refine hp.imp ?_
    intro a b hab hA
    rw [hA] at hab
    exact str_eq_empty_of_data_nil _
      (eq_nil_of_charListLt_nil _ (by simpa using hab))

/-- Witness for C7 at a three-session project: sorted keys 2024-03-03,
2024-02-02, "" — the timestampless session last. -/
theorem C7_witness :
    List.Pairwise
      (fun a b => charListLt (sessKeyStr a).data (sessKeyStr b).data = false)
      exC7sorted
    ∧ (∀ s ∈ exC7sorted, s.last_timestamp = JVal.null → sessKeyStr s = "")
    ∧ List.Pairwise (fun a b => sessKeyStr a = "" → sessKeyStr b = "")
        exC7sorted := by
  have hw : ∀ dir ∈ exC7dirs, ∀ f ∈ dir.sessionFiles, ∀ l ∈ f.lines,
      sessLineWf l = true := by
    have hall : exC7dirs.all
        (fun dir => dir.sessionFiles.all
          (fun f => f.lines.all sessLineWf)) = true := rfl
    intro dir hdir f hf l hl
    exact List.all_eq_true.mp
      (List.all_eq_true.mp (List.all_eq_true.mp hall dir hdir) f hf) l hl
  have h := C7_sessions_sorted exC7dirs "p" hw exC7sorted rfl
  exact ⟨h.1, h.2.2.2.1, h.2.2.2.2⟩

/-!
## Lemmas: daily histogram keys and the ascending pair sort
-/

theorem bump_keys_same (m : List (String × Nat)) (k : String)
    (h : m.any (fun p => p.1 == k) = true) :
    (bump m k).map Prod.fst = m.map Prod.fst := by
  unfold bump
  rw [if_pos h, List.map_map]
  refine List.map_congr_left ?_
  intro p _
  show (if p.1 == k then (p.1, p.2 + 1) else p).1 = p.1
  split <;> rfl

theorem bump_keys_mem (m : List (String × Nat)) (k : String) (s : String) :
    s ∈ (bump m k).map Prod.fst ↔ s ∈ m.map Prod.fst ∨ s = k := by
  by_cases h : m.any (fun p => p.1 == k) = true
  · rw [bump_keys_same m k h]
    constructor
    · exact Or.inl
    · rintro (hs | rfl)
      · exact hs
      · obtain ⟨p, hp, hpk⟩ := List.any_eq_true.mp h
        exact List.mem_map.mpr ⟨p, hp, beq_iff_eq.mp hpk⟩
  · unfold bump
    rw [if_neg h, List.map_append]
    simp only [List.map_cons, List.map_nil, List.mem_append,
      List.mem_singleton]

theorem bump_keys_nodup (m : List (String × Nat)) (k : String)
    (h : (m.map Prod.fst).Nodup) : ((bump m k).map Prod.fst).Nodup := by
  by_cases ha : m.any (fun p => p.1 == k) = true
  · rw [bump_keys_same m k ha]
    exact h
  · unfold bump
    rw [if_neg ha, List.map_append]
    simp only [List.map_cons, List.map_nil]
    rw [List.nodup_append]
    refine ⟨h, List.nodup_singleton _, ?_⟩
    intro s hs
    simp only [List.mem_singleton]
    intro hk
    subst hk
    obtain ⟨p, hp, hps⟩ := List.mem_map.mp hs
    exact ha (List.any_eq_true.mpr ⟨p, hp, by simp [hps]⟩)

theorem historyScan_daily (dateOf : Int → String) (hourOf : Int → Nat) :
    ∀ (entries : List JVal) (daily : List (String × Nat))
      (hourly : List (Nat × Nat)) (daily' : List (String × Nat))
      (hourly' : List (Nat × Nat)),
      historyScan dateOf hourOf entries daily hourly
        = Except.ok (daily', hourly') →
      ((daily.map Prod.fst).Nodup → (daily'.map Prod.fst).Nodup)
      ∧ (∀ s, s ∈ daily'.map Prod.fst ↔
          s ∈ daily.map Prod.fst ∨ s ∈ historyDatesOf dateOf entries) := by
  intro entries
  induction entries with
  | nil =>
      intro daily hourly daily' hourly' h
      simp only [historyScan, Except.ok.injEq, Prod.mk.injEq] at h
      obtain ⟨h1, h2⟩ := h
      subst h1
      simp [historyDatesOf]
  | cons e rest ih =>
      intro daily hourly daily' hourly' h
      cases e with
      | obj efs =>
          by_cases hts : pyTruthy (objGet efs "timestamp" JVal.null) = true
          · cases hnum : asNumeric (objGet efs "timestamp" JVal.null) with
            | some t =>
                rw [show historyScan dateOf hourOf
                    (JVal.obj efs :: rest) daily hourly
                    = historyScan dateOf hourOf rest
                        (bump daily (dateOf t)) (bump hourly (hourOf t))
                  from by simp [historyScan, hts, hnum]] at h
                obtain ⟨hnd, hmem⟩ := ih _ _ _ _ h
                constructor
                · intro hd
                  exact hnd (bump_keys_nodup daily (dateOf t) hd)
                · intro s
                  rw [hmem s, bump_keys_mem]
                  have hdates : historyDatesOf dateOf (JVal.obj efs :: rest)
                      = dateOf t :: historyDatesOf dateOf rest := by
                    simp [historyDatesOf, hts, hnum]
                  rw [hdates]
                  simp only [List.mem_cons]
                  tauto
            | none => simp [historyScan, hts, hnum] at h
          · rw [show historyScan dateOf hourOf
                (JVal.obj efs :: rest) daily hourly
                = historyScan dateOf hourOf rest daily hourly
              from by simp [historyScan, hts]] at h
            obtain ⟨hnd, hmem⟩ := ih _ _ _ _ h
            refine ⟨hnd, ?_⟩
            intro s
            rw [hmem s]
            have hdates : historyDatesOf dateOf (JVal.obj efs :: rest)
                = historyDatesOf dateOf rest := by
              simp [historyDatesOf, hts]
            rw [hdates]
      | null => simp [historyScan] at h
      | bool b => simp [historyScan] at h
      | num n => simp [historyScan] at h
      | str s => simp [historyScan] at h
      | arr xs => simp [historyScan] at h

theorem insortAsc_perm (lt : α → α → Bool) (x : α) (l : List α) :
    (insortAsc lt x l).Perm (x :: l) := by
  induction l with
  | nil => exact List.Perm.refl _
  | cons y ys ih =>
      by_cases h : lt x y = true
      · simp only [insortAsc, if_pos h]
        exact List.Perm.refl _
      · simp only [insortAsc, if_neg h]
        exact (ih.cons y).trans (List.Perm.swap x y ys)

theorem insortAsc_mem {lt : α → α → Bool} {x z : α} {l : List α}
    (hz : z ∈ insortAsc lt x l) : z = x ∨ z ∈ l := by
  have := (insortAsc_perm lt x l).mem_iff.mp hz
  simpa using this

theorem insortAsc_pairwise (lt : α → α → Bool)
    (hasymm : ∀ a b, lt a b = true → lt b a = false)
    (htrans : ∀ a b c, lt a b = true → lt b c = true → lt a c = true)
    (x : α) {l : List α}
    (hl : List.Pairwise (fun a b => lt b a = false) l) :
    List.Pairwise (fun a b => lt b a = false) (insortAsc lt x l) := by
  induction l with
  | nil => simp [insortAsc]
  | cons y ys ih =>
      by_cases h : lt x y = true
      · simp only [insortAsc, if_pos h]
        refine List.Pairwise.cons ?_ hl
        intro z hz
        rcases hz with _ | hz
        · exact hasymm _ _ h
        · cases hv : lt z x with
          | false => rfl
          | true =>
              have hzy := htrans z x y hv h
              rw [List.rel_of_pairwise_cons hl (by assumption)] at hzy
              exact absurd hzy (by simp)
      · simp only [insortAsc, if_neg h]
        refine List.Pairwise.cons ?_ (ih hl.tail)
        intro z hz
        rcases insortAsc_mem hz with rfl | hz
        · exact Bool.not_eq_true _ ▸ (by simpa using h)
        · exact List.rel_of_pairwise_cons hl hz

theorem sortAsc_perm (lt : α → α → Bool) (l : List α) :
    (sortAsc lt l).Perm l := by
  have hgo : ∀ acc, ((l.foldl (fun acc x => insortAsc lt x acc) acc)).Perm
      (acc ++ l) := by
    induction l with
    | nil => intro acc; simp
    | cons x xs ih =>
        intro acc
        simp only [List.foldl_cons]
        refine (ih (insortAsc lt x acc)).trans ?_
        refine ((insortAsc_perm lt x acc).append_right xs).trans ?_
        simpa using (@List.perm_middle _ x acc xs).symm
  simpa using hgo []

theorem sortAsc_pairwise (lt : α → α → Bool)
    (hasymm : ∀ a b, lt a b = true → lt b a = false)
    (htrans : ∀ a b c, lt a b = true → lt b c = true → lt a c = true)
    (l : List α) :
    List.Pairwise (fun a b => lt b a = false) (sortAsc lt l) := by
  have hgo : ∀ acc, List.Pairwise (fun a b => lt b a = false) acc →
      List.Pairwise (fun a b => lt b a = false)
        (l.foldl (fun acc x => insortAsc lt x acc) acc) := by
    induction l with
    | nil => intro acc hacc; simpa using hacc
    | cons x xs ih =>
        intro acc hacc
        simpa using ih _ (insortAsc_pairwise lt hasymm htrans x hacc)
  exact hgo [] (by simp)

theorem pairLtSN_asymm (p q : String × Nat) (h : pairLtSN p q = true) :
    pairLtSN q p = false := by
  rw [Bool.eq_false_iff]
  intro h2
  simp only [pairLtSN, Bool.or_eq_true, Bool.and_eq_true, beq_iff_eq,
    decide_eq_true_eq] at h h2
  rcases h with h1 | ⟨he, hn⟩
  · rcases h2 with g1 | ⟨ge, gn⟩
    · have := charListLt_trans _ _ _ h1 g1
      rw [charListLt_irrefl] at this
      exact absurd this (by simp)
    · rw [ge] at h1
      rw [charListLt_irrefl] at h1
      exact absurd h1 (by simp)
  · rcases h2 with g1 | ⟨ge, gn⟩
    · rw [he] at g1
      rw [charListLt_irrefl] at g1
      exact absurd g1 (by simp)
    · omega

theorem pairLtSN_trans (a b c : String × Nat) (hab : pairLtSN a b = true)
    (hbc : pairLtSN b c = true) : pairLtSN a c = true := by
  simp only [pairLtSN, Bool.or_eq_true, Bool.and_eq_true, beq_iff_eq,
    decide_eq_true_eq] at hab hbc ⊢
  rcases hab with h1 | ⟨he, hn⟩
  · rcases hbc with g1 | ⟨ge, gn⟩
    · exact Or.inl (charListLt_trans _ _ _ h1 g1)
    · have : b.1.data = c.1.data := by rw [ge]
      exact Or.inl (this ▸ h1)
  · rcases hbc with g1 | ⟨ge, gn⟩
    · have : a.1.data = b.1.data := by rw [he]
      exact Or.inl (this ▸ g1)
    · exact Or.inr ⟨he.trans ge, hn.trans gn⟩

theorem sorted_pairs_keys_strict (l : List (String × Nat))
    (hnd : (l.map Prod.fst).Nodup)
    (hpw : List.Pairwise (fun a b => pairLtSN b a = false) l) :
    List.Pairwise (fun a b : String => charListLt a.data b.data = true)
      (l.map Prod.fst) := by
  rw [List.Nodup, List.pairwise_map] at hnd
  rw [List.pairwise_map]
  refine (hnd.and hpw).imp ?_
  rintro a b ⟨hne, hlt⟩
  cases hab : charListLt a.1.data b.1.data with
  | true => rfl
  | false =>
      have hba : charListLt b.1.data a.1.data = false := by
        cases hv : charListLt b.1.data a.1.data with
        | false => rfl
        | true =>
            rw [pairLtSN, hv] at hlt
            simp at hlt
      exact absurd (String.ext (charListLt_connex _ _ hab hba)) hne

/-- C8: when `get_statistics` succeeds on a history feed whose timestamped
entries span more than 30 distinct calendar dates, `daily_activity` holds
exactly 30 date keys, in strictly ascending (Python string) order, each a
date occurring in the feed, and every feed date not kept is strictly
smaller than every kept key — i.e. exactly the 30 most recent dates,
ascending. -/
theorem C8_daily_last30 (dateOf : Int → String) (hourOf : Int → Nat)
    (historyLines : List (Option JVal)) (dirs : List ProjectDir) (st : Stats)
    (hok : get_statistics dateOf hourOf historyLines dirs = Except.ok st)
    (hcount : 30 <
      ((historyDatesOf dateOf (read_history_file historyLines)).dedup).length) :
    (st.daily_activity.map Prod.fst).length = 30
    ∧ List.Pairwise (fun a b : String => charListLt a.data b.data = true)
        (st.daily_activity.map Prod.fst)
    ∧ (∀ s ∈ st.daily_activity.map Prod.fst,
        s ∈ historyDatesOf dateOf (read_history_file historyLines))
    ∧ (∀ t ∈ historyDatesOf dateOf (read_history_file historyLines),
        t ∉ st.daily_activity.map Prod.fst →
        ∀ s ∈ st.daily_activity.map Prod.fst,
          charListLt t.data s.data = true) := by
  cases hhist : historyScan dateOf hourOf (read_history_file historyLines)
      [] [] with
  | error e =>
      simp only [get_statistics, hhist, except_bind_error] at hok
      exact Except.noConfusion hok
  | ok dh =>
      obtain ⟨daily, hourly⟩ := dh
      cases hacc : statsProjectScan dirs (get_all_projects dirs)
          { total_sessions := 0
            total_messages := 0
            model_usage := []
            tool_usage := []
            projects_by_activity := [] } with
      | error e =>
          simp only [get_statistics, hhist, except_bind_ok, hacc,
            except_bind_error] at hok
          exact Except.noConfusion hok
      | ok acc =>
          simp only [get_statistics, hhist, hacc, except_bind_ok,
            Except.ok.injEq] at hok
          have hda : st.daily_activity = (sortAsc pairLtSN daily).drop
              ((sortAsc pairLtSN daily).length - 30) := by
            rw [← hok]
          obtain ⟨hndimp, hmemall⟩ := historyScan_daily dateOf hourOf
            (read_history_file historyLines) [] [] daily hourly hhist
          have hnd : (daily.map Prod.fst).Nodup := hndimp (by simp)
          have hmem : ∀ s, s ∈ daily.map Prod.fst ↔
              s ∈ historyDatesOf dateOf (read_history_file historyLines) := by
            intro s
            have h0 := hmemall s
            simpa using h0
          have hkperm : ((sortAsc pairLtSN daily).map Prod.fst).Perm
              (daily.map Prod.fst) :=
            (sortAsc_perm pairLtSN daily).map Prod.fst
          have hsnd : ((sortAsc pairLtSN daily).map Prod.fst).Nodup :=
            hkperm.nodup_iff.mpr hnd
          have hsmem : ∀ s, s ∈ (sortAsc pairLtSN daily).map Prod.fst ↔
              s ∈ historyDatesOf dateOf (read_history_file historyLines) :=
            fun s => (hkperm.mem_iff).trans (hmem s)
          have hdperm : ((sortAsc pairLtSN daily).map Prod.fst).Perm
              ((historyDatesOf dateOf (read_history_file historyLines)).dedup) :=
            (List.perm_ext_iff_of_nodup hsnd (List.nodup_dedup _)).mpr
              (fun a => (hsmem a).trans (List.mem_dedup).symm)
          have hlen : (sortAsc pairLtSN daily).length =
              ((historyDatesOf dateOf
                (read_history_file historyLines)).dedup).length := by
            simpa using hdperm.length_eq
          have h30 : 30 < (sortAsc pairLtSN daily).length := by omega
          have hstrict : List.Pairwise
              (fun a b : String => charListLt a.data b.data = true)
              ((sortAsc pairLtSN daily).map Prod.fst) :=
            sorted_pairs_keys_strict _ hsnd
              (sortAsc_pairwise pairLtSN pairLtSN_asymm pairLtSN_trans daily)
          have hkeys : st.daily_activity.map Prod.fst =
              ((sortAsc pairLtSN daily).map Prod.fst).drop
                ((sortAsc pairLtSN daily).length - 30) := by
            rw [hda, List.map_drop]
          refine ⟨?_, ?_, ?_, ?_⟩
          · rw [hkeys, List.length_drop, List.length_map]
            omega
          · rw [hkeys]
            exact hstrict.sublist (List.drop_sublist _ _)
          · intro s hs
            rw [hkeys] at hs
            exact (hsmem s).mp (List.drop_subset _ _ hs)
          · intro t ht htnot s hs
            rw [hkeys] at htnot hs
            have htfull : t ∈ (sortAsc pairLtSN daily).map Prod.fst :=
              (hsmem t).mpr ht
            have hsplit := List.take_append_drop
              ((sortAsc pairLtSN daily).length - 30)
              ((sortAsc pairLtSN daily).map Prod.fst)
            have htsplit : t ∈
                ((sortAsc pairLtSN daily).map Prod.fst).take
                  ((sortAsc pairLtSN daily).length - 30) ++
                ((sortAsc pairLtSN daily).map Prod.fst).drop
                  ((sortAsc pairLtSN daily).length - 30) := by
              rw [hsplit]
              exact htfull
            have httake : t ∈ ((sortAsc pairLtSN daily).map Prod.fst).take
                ((sortAsc pairLtSN daily).length - 30) := by
              rcases List.mem_append.mp htsplit with h | h
              · exact h
              · exact absurd h htnot
            have hpw2 : List.Pairwise
                (fun a b : String => charListLt a.data b.data = true)
                (((sortAsc pairLtSN daily).map Prod.fst).take
                    ((sortAsc pairLtSN daily).length - 30) ++
                 ((sortAsc pairLtSN daily).map Prod.fst).drop
                    ((sortAsc pairLtSN daily).length - 30)) := by
              rw [hsplit]
              exact hstrict
            exact (List.pairwise_append.mp hpw2).2.2 t httake s hs

/-- C8, witness: a feed of 31 distinct-date entries.  `daily_activity`
keeps exactly 30 keys, strictly ascending, all feed dates, with the one
dropped date smaller than every kept key. -/
theorem C8_witness :
    (exC8stats.daily_activity.map Prod.fst).length = 30
    ∧ List.Pairwise (fun a b : String => charListLt a.data b.data = true)
        (exC8stats.daily_activity.map Prod.fst)
    ∧ (∀ s ∈ exC8stats.daily_activity.map Prod.fst,
        s ∈ historyDatesOf (fun t => toString t)
          (read_history_file exC8hist))
    ∧ (∀ t ∈ historyDatesOf (fun t => toString t)
          (read_history_file exC8hist),
        t ∉ exC8stats.daily_activity.map Prod.fst →
        ∀ s ∈ exC8stats.daily_activity.map Prod.fst,
          charListLt t.data s.data = true) :=
  C8_daily_last30 (fun t => toString t) (fun _ => 0) exC8hist [] exC8stats
    (by rfl) (by decide)

/-- C9: `get_all_projects` returns the project records sorted descending by
`session_count`; the result is a permutation of the enumeration-order
records and, for every tie class, keeps their enumeration order (the
filter at any fixed `session_count` is unchanged).  On directories with
5, 2 and 2 session files the counts come back as `[5, 2, 2]` with the two
tied directories in enumeration order. -/
theorem C9_projects_sorted :
    (∀ dirs : List ProjectDir,
        List.Pairwise (fun a b => b.session_count ≤ a.session_count)
          (get_all_projects dirs)
        ∧ (get_all_projects dirs).Perm (unsortedProjects dirs)
        ∧ ∀ c : Nat,
            (get_all_projects dirs).filter (fun p => p.session_count == c)
              = (unsortedProjects dirs).filter (fun p => p.session_count == c))
    ∧ (get_all_projects exampleDirs522C9).map (fun p => p.session_count) = [5, 2, 2]
    ∧ (get_all_projects exampleDirs522C9).map (fun p => p.id) = ["a", "b", "c"] := by
  refine ⟨fun dirs =>
    ⟨sortDescNat_pairwise _ _, sortDescNat_perm _ _,
     fun c => sortDescNat_filter _ c _⟩, rfl, rfl⟩

